import Mathlib

/-!
Verification development for the dguard-audit-bot repository.

We give a shallow embedding of the core analysis pipeline:
* the path/URL normalization functions of the two analyzers
  (BackendAnalyzer.normalizePath, FrontendAnalyzer.cleanEndpoint),
* the endpoint reconciliation (EndpointValidator.validate),
* the security policy checks (SecurityValidator),
* the endpoint map construction (BackendAnalyzer.analyzeRouteFile),
* the cache read path (CacheManager.get),
* the component validation pipeline (ComponentValidator.validate).

Strings are modelled as lists of characters (`Str`), JavaScript `Map`s as
association lists with JS `Map.set` update semantics, and JS regular
expression operations are translated into explicit recursive scans that
implement the same matching discipline (leftmost match, greedy character
classes) for the concrete patterns appearing in the source.
-/

set_option maxHeartbeats 1000000

namespace DGuard

/-- Strings of the modelled program: lists of characters. -/
abbrev Str := List Char

/-- Conversion helper for string literals. -/
def str (s : String) : Str := s.toList

/-- JS `String.prototype.startsWith` on our string model. -/
def startsWithL : Str → Str → Bool
  | _, [] => true
  | [], _ :: _ => false
  | c :: cs, d :: ds => c = d && startsWithL cs ds

/-- JS `String.prototype.includes`: substring containment. -/
def containsSub : Str → Str → Bool
  | hay, needle =>
    startsWithL hay needle ||
      (match hay with
       | [] => false
       | _ :: t => containsSub t needle)

/-- JS `String.prototype.endsWith` on our string model. -/
def endsWithL (s suf : Str) : Bool := startsWithL s.reverse suf.reverse

/-- Last character of a string, `none` on the empty string. -/
def lastChar : Str → Option Char
  | [] => none
  | [c] => some c
  | _ :: d :: rest => lastChar (d :: rest)

/-- Drop the final character (JS `slice(0, -1)`). -/
def dropLastL : Str → Str
  | [] => []
  | [_] => []
  | c :: d :: rest => c :: dropLastL (d :: rest)

/-- ASCII lower-casing, JS `String.prototype.toLowerCase` for the ASCII
strings handled by the tool. -/
def lowerL (s : Str) : Str := s.map Char.toLower

/-! ## BackendAnalyzer.normalizePath

Source (src/src/analyzers/BackendAnalyzer.js:359-369):
the path has every run of repeated `/` collapsed
(`path.replace(/\/+/g, '/')`), a `/` prepended when missing, and one
trailing `/` removed when the result is longer than one character. -/

/-- `path.replace(/\/+/g, '/')`: collapse each maximal run of slashes to a
single slash (keeping the final slash of each run). -/
def collapseSlashes : Str → Str
  | [] => []
  | [c] => [c]
  | c :: d :: rest =>
    if c = '/' && d = '/' then collapseSlashes (d :: rest)
    else c :: collapseSlashes (d :: rest)

/-- `if (!normalized.startsWith('/')) normalized = '/' + normalized`. -/
def ensureLeadingSlash (s : Str) : Str :=
  if startsWithL s (str "/") then s else '/' :: s

/-- `if (normalized.length > 1 && normalized.endsWith('/')) normalized =
normalized.slice(0, -1)`. -/
def stripTrailingSlash (s : Str) : Str :=
  if 1 < s.length ∧ lastChar s = some '/' then dropLastL s else s

/-- BackendAnalyzer.normalizePath. -/
def normalizePath (s : Str) : Str :=
  stripTrailingSlash (ensureLeadingSlash (collapseSlashes s))

/-! ## FrontendAnalyzer.cleanEndpoint

Source (src/src/analyzers/FrontendAnalyzer.js:385-403): falsy guard, strip
a leading `https?://host` (`replace(/^https?:\/\/[^\/]+/, '')`), cut at the
first `?` (`split('?')[0]`), replace every `${...}` interpolation by
`:param` (`replace(/\$\{[^}]+\}/g, ':param')`), and prepend `/` when
missing. -/

/-- Keep the string from its first `/` onward; empty if there is none.
This realises the tail behaviour of the anchored greedy match
`[^\/]+`: the matched host run extends to the character before the first
slash (or the end of the string). -/
def keepFromSlash : Str → Str
  | [] => []
  | c :: rest => if c = '/' then c :: rest else keepFromSlash rest

/-- After a matched `https?://`, the regex still demands `[^\/]+`: at
least one non-slash character. If the remainder is empty or begins with a
slash the whole anchored match fails and the original string is kept;
otherwise the greedy run of non-slash characters is removed. -/
def hostTail (orig rest : Str) : Str :=
  match rest with
  | [] => orig
  | c :: cs => if c = '/' then orig else keepFromSlash cs

/-- Strip an anchored `https?://[^/]+` match
(`endpoint.replace(/^https?:\/\/[^\/]+/, '')`). The alternatives
`https://` and `http://` are mutually exclusive at any given string. -/
def stripHost (s : Str) : Str :=
  if startsWithL s (str "https://") then hostTail s (s.drop 8)
  else if startsWithL s (str "http://") then hostTail s (s.drop 7)
  else s

/-- JS `s.split(sep)[0]` for a one-character separator: the part of the
string before the first occurrence of `sep` (the whole string if absent). -/
def beforeChar (sep : Char) : Str → Str
  | [] => []
  | c :: rest => if c = sep then [] else c :: beforeChar sep rest

/-- `endpoint.split('?')[0]`: the part before the first `?`. -/
def takeBeforeQuery (s : Str) : Str := beforeChar '?' s

/-- Split a string at its first `}`: `findClose s = some (b, a)` when
`s = b ++ '}' :: a` and `b` contains no `}`; `none` when `s` has no `}`.
Used to state what a `\$\{[^}]+\}` match consumes. -/
def findClose : Str → Option (Str × Str)
  | [] => none
  | c :: rest =>
    if c = '}' then some ([], rest)
    else
      match findClose rest with
      | some (b, a) => some (c :: b, a)
      | none => none

/-- Scanner state for the template replacement: `norm` outside any
candidate match, `dollar` right after a `$`, `inTpl content` after a `${`
with `content` the non-`}` characters accumulated so far. -/
inductive TState : Type
  | norm : TState
  | dollar : TState
  | inTpl : Str → TState
deriving DecidableEq

/-- `endpoint.replace(/\$\{[^}]+\}/g, ':param')` as a left-to-right,
one-character-per-step scan.  A `${` enters the `inTpl` state, which
accumulates the run of non-`}` characters following it.  A `}` closing a
nonempty run is a regex match (`[^}]+` is greedy but bounded by the first
`}`): the engine emits `:param` and resumes after the `}`.  A `}` closing
an empty run is a failed match of `[^}]+` (which needs at least one
character), so `${}` is emitted verbatim and the scan resumes after it,
exactly as the regex engine restarts at the `{`.  At the end of the input
a pending `$`/`${content` is emitted verbatim: no `}` remains, so no
match could start inside it. -/
def tplRun : TState → Str → Str
  | .norm, [] => []
  | .dollar, [] => ['$']
  | .inTpl content, [] => '$' :: '{' :: content
  | .norm, c :: rest =>
    if c = '$' then tplRun .dollar rest else c :: tplRun .norm rest
  | .dollar, c :: rest =>
    if c = '{' then tplRun (.inTpl []) rest
    else if c = '$' then '$' :: tplRun .dollar rest
    else '$' :: c :: tplRun .norm rest
  | .inTpl content, c :: rest =>
    if c = '}' then
      if content = [] then '$' :: '{' :: '}' :: tplRun .norm rest
      else str ":param" ++ tplRun .norm rest
    else tplRun (.inTpl (content ++ [c])) rest

/-- The global template replacement itself. -/
def replaceTpl (s : Str) : Str := tplRun .norm s

/-- FrontendAnalyzer.cleanEndpoint. -/
def cleanEndpoint (s : Str) : Str :=
  if s = [] then []
  else ensureLeadingSlash (replaceTpl (takeBeforeQuery (stripHost s)))

/-! ## FrontendAnalyzer.extractQueryParams

Source (src/src/analyzers/FrontendAnalyzer.js:419-436): find the first
`?`; when present, split the remainder on `&` and collect each piece's
part before `=` when that part is nonempty. -/

/-- The remainder of a string after the first occurrence of a character
(JS `indexOf` + `substring(i + 1)`), `none` when the character is absent
(JS `indexOf` returning `-1`). -/
def afterChar (c : Char) : Str → Option Str
  | [] => none
  | d :: rest => if d = c then some rest else afterChar c rest

/-- JS `String.prototype.split` on a one-character separator
(accumulator-style; `splitOn '&' "a&&b" = ["a", "", "b"]`). -/
def splitOnAux (sep : Char) (cur : Str) : Str → List Str
  | [] => [cur]
  | c :: rest =>
    if c = sep then cur :: splitOnAux sep [] rest
    else splitOnAux sep (cur ++ [c]) rest

/-- JS `String.prototype.split` on a one-character separator. -/
def splitOn (sep : Char) (s : Str) : List Str := splitOnAux sep [] s

/-- FrontendAnalyzer.extractQueryParams. -/
def extractQueryParams (url : Str) : List Str :=
  match afterChar '?' url with
  | none => []
  | some qs => ((splitOn '&' qs).map (beforeChar '=')).filter (fun k => !k.isEmpty)

/-! ## Shape invariants of normalizePath -/

/-- No two adjacent slashes anywhere in the string. -/
def noDouble : Str → Bool
  | c :: d :: rest => (!(c = '/' && d = '/')) && noDouble (d :: rest)
  | _ => true

/-! ## JS Map model

JavaScript `Map`s are modelled as association lists in insertion order:
`get` returns the value at the first matching key (keys are unique in a
real `Map`), `set` updates in place when the key exists and appends
otherwise — exactly the observable `Map.set` behaviour. -/

/-- JS `Map.get`. -/
def mapGet {α : Type} : List (Str × α) → Str → Option α
  | [], _ => none
  | (k', v) :: rest, k => if k' = k then some v else mapGet rest k

/-- JS `Map.set`. -/
def mapSet {α : Type} : List (Str × α) → Str → α → List (Str × α)
  | [], k, v => [(k, v)]
  | (k', v') :: rest, k, v =>
    if k' = k then (k, v) :: rest else (k', v') :: mapSet rest k v

/-! ## Issue records

Issues carry many presentational fields in the source (message, file,
line, details, suggestions); the model keeps the fields the validation
logic and the claims depend on: the issue type, the severity string, the
endpoint key / component name it refers to, and the parameter/field name
when applicable. -/

/-- The issue types produced by the three validators. -/
inductive IssueType : Type
  | MISSING_BACKEND_ENDPOINT
  | UNUSED_ENDPOINT
  | MISSING_URL_PARAM
  | EXTRA_URL_PARAM
  | MISSING_BODY_FIELD
  | EXTRA_BODY_FIELD
  | MISSING_QUERY_PARAM
  | SENSITIVE_ENDPOINT_NO_AUTH
  | MISSING_AUTH_HEADER
  | PUBLIC_ENDPOINT_HAS_AUTH
  | SENSITIVE_METHOD_NO_AUTH
  | DUPLICATE_COMPONENT
  | UNUSED_DS_COMPONENT
  | VERIFY_PROPS_USAGE
deriving DecidableEq

/-- One reported issue. -/
structure Issue : Type where
  type : IssueType
  severity : Str
  endpoint : Str
  detail : Str
deriving DecidableEq

/-- JS `x || 'DEFAULT'` on an optionally configured severity string: the
default applies when the option is absent or empty (both falsy). -/
def jsOr (v : Option Str) (d : Str) : Str :=
  match v with
  | none => d
  | some s => if s = [] then d else s

/-- The endpoint key `` `${method} ${path}` ``. -/
def epKey (method path : Str) : Str := method ++ ' ' :: path

/-! ## EndpointValidator (src/src/validators/EndpointValidator.js)

`validate(backendEndpoints, frontendAPICalls)` walks every call record of
the call-site multimap: a missing backend key yields a
MISSING_BACKEND_ENDPOINT issue, a present one marks the endpoint used
(the mutation `endpoint.used = true`) and runs the field-level checks.
Afterwards every endpoint still unused yields an UNUSED_ENDPOINT issue.
The model threads the endpoint map as explicit state. -/

/-- The severity overrides read from `this.rules.severity` by
EndpointValidator. -/
structure EndpointRules : Type where
  missingEndpoint : Option Str
  unusedEndpoint : Option Str
  missingParam : Option Str
  missingBodyField : Option Str
deriving DecidableEq

/-- An Endpoint record as produced by BackendAnalyzer (the fields read by
the validators; `expectedBody` maps field names to their `required`
flag). -/
structure Endpoint : Type where
  method : Str
  path : Str
  params : List Str
  queryParams : List Str
  expectedBody : List (Str × Bool)
  middleware : List Str
  requiresAuth : Bool
  used : Bool
deriving DecidableEq

/-- A CallSite record as produced by FrontendAnalyzer (the fields read by
the validators; `data` is the list of keys of the request body object). -/
structure Call : Type where
  method : Str
  endpoint : Str
  params : List Str
  queryParams : List Str
  data : List Str
  hasAuth : Bool
deriving DecidableEq

/-- EndpointValidator.validateURLParams. -/
def validateURLParams (rules : EndpointRules) (ep : Endpoint) (call : Call) :
    List Issue :=
  (ep.params.filterMap fun param =>
    if !(call.params.contains param) && !(containsSub call.endpoint (':' :: param)) then
      some { type := .MISSING_URL_PARAM, severity := jsOr rules.missingParam (str "HIGH"),
             endpoint := epKey ep.method ep.path, detail := param }
    else none) ++
  (call.params.filterMap fun param =>
    if !(ep.params.contains param) then
      some { type := .EXTRA_URL_PARAM, severity := str "LOW",
             endpoint := epKey ep.method ep.path, detail := param }
    else none)

/-- EndpointValidator.validateRequestBody.  Note the early return: when
the call sends no body (`!call.data || Object.keys(call.data).length ===
0`) no body checks run at all. -/
def validateRequestBody (rules : EndpointRules) (ep : Endpoint) (call : Call) :
    List Issue :=
  if call.data = [] then []
  else
    (ep.expectedBody.filterMap fun fb =>
      if fb.2 && !(call.data.contains fb.1) then
        some { type := .MISSING_BODY_FIELD,
               severity := jsOr rules.missingBodyField (str "MEDIUM"),
               endpoint := epKey ep.method ep.path, detail := fb.1 }
      else none) ++
    (call.data.filterMap fun field =>
      if !(ep.expectedBody.any fun fb => fb.1 == field) then
        some { type := .EXTRA_BODY_FIELD, severity := str "LOW",
               endpoint := epKey ep.method ep.path, detail := field }
      else none)

/-- EndpointValidator.validateQueryParams. -/
def validateQueryParams (ep : Endpoint) (call : Call) : List Issue :=
  ep.queryParams.filterMap fun param =>
    if !(call.queryParams.contains param) then
      some { type := .MISSING_QUERY_PARAM, severity := str "LOW",
             endpoint := epKey ep.method ep.path, detail := param }
    else none

/-- EndpointValidator.validateEndpointUsage. -/
def validateEndpointUsage (rules : EndpointRules) (ep : Endpoint) (call : Call) :
    List Issue :=
  validateURLParams rules ep call ++ validateRequestBody rules ep call ++
    validateQueryParams ep call

/-- The mutation `endpoint.used = true` on the object returned by
`backendEndpoints.get(key)`. -/
def markUsed : List (Str × Endpoint) → Str → List (Str × Endpoint)
  | [], _ => []
  | (k', e) :: rest, k =>
    if k' = k then (k', { e with used := true }) :: rest
    else (k', e) :: markUsed rest k

/-- The body of the per-call closure in EndpointValidator.validate. -/
def processCall (rules : EndpointRules) (m : List (Str × Endpoint))
    (key : Str) (call : Call) : List (Str × Endpoint) × List Issue :=
  match mapGet m key with
  | none =>
    (m, [{ type := .MISSING_BACKEND_ENDPOINT,
           severity := jsOr rules.missingEndpoint (str "CRITICAL"),
           endpoint := key, detail := [] }])
  | some ep => (markUsed m key, validateEndpointUsage rules ep call)

/-- The `calls.forEach(call => ...)` loop over one key's call records. -/
def processCalls (rules : EndpointRules) (key : Str) :
    List (Str × Endpoint) → List Call → List (Str × Endpoint) × List Issue
  | m, [] => (m, [])
  | m, call :: calls =>
    let p1 := processCall rules m key call
    let p2 := processCalls rules key p1.1 calls
    (p2.1, p1.2 ++ p2.2)

/-- The `frontendAPICalls.forEach((calls, key) => ...)` loop. -/
def processAllCalls (rules : EndpointRules) :
    List (Str × Endpoint) → List (Str × List Call) →
      List (Str × Endpoint) × List Issue
  | m, [] => (m, [])
  | m, (key, calls) :: rest =>
    let p1 := processCalls rules key m calls
    let p2 := processAllCalls rules p1.1 rest
    (p2.1, p1.2 ++ p2.2)

/-- The final `backendEndpoints.forEach` loop reporting unused
endpoints. -/
def findUnusedEndpoints (rules : EndpointRules) (m : List (Str × Endpoint)) :
    List Issue :=
  m.filterMap fun p =>
    if p.2.used then none
    else some { type := .UNUSED_ENDPOINT,
                severity := jsOr rules.unusedEndpoint (str "LOW"),
                endpoint := p.1, detail := [] }

/-- EndpointValidator.validate. -/
def endpointValidate (rules : EndpointRules) (backendEndpoints : List (Str × Endpoint))
    (frontendAPICalls : List (Str × List Call)) : List Issue :=
  let p := processAllCalls rules backendEndpoints frontendAPICalls
  p.2 ++ findUnusedEndpoints rules p.1

/-- Bool predicate selecting issues of one type. -/
def isType (ty : IssueType) (i : Issue) : Bool := i.type == ty

/-- Spec-side count for C2: the number of call records whose key has no
entry in the endpoint map. -/
def countMissingCalls (m : List (Str × Endpoint))
    (calls : List (Str × List Call)) : Nat :=
  (calls.map fun p => if (mapGet m p.1).isNone then p.2.length else 0).sum

/-- Default (unconfigured) severity rules for EndpointValidator. -/
def epRulesDefault : EndpointRules := ⟨none, none, none, none⟩

/-- C8 counterexample data: an endpoint whose body schema has a required
field `name`. -/
def C8endpoint : Endpoint :=
  { method := str "POST", path := str "/api/users", params := [],
    queryParams := [], expectedBody := [(str "name", true)],
    middleware := [], requiresAuth := false, used := false }

/-- C8 counterexample data: a matching call site that sends no body at
all. -/
def C8call : Call :=
  { method := str "POST", endpoint := str "/api/users", params := [],
    queryParams := [], data := [], hasAuth := false }

/-- C8 counterexample data: the endpoint map. -/
def C8E : List (Str × Endpoint) := [(str "POST /api/users", C8endpoint)]

/-- C8 counterexample data: the call-site map. -/
def C8C : List (Str × List Call) := [(str "POST /api/users", [C8call])]

/-! ## BackendAnalyzer.analyzeRouteFile: building the endpoint map

Source (src/src/analyzers/BackendAnalyzer.js:126-135): every extracted
endpoint is stored with `this.endpoints.set(`${method} ${path}`, endpoint)`
into a plain `Map`. -/

/-- The key under which analyzeRouteFile stores an endpoint. -/
def endpointMapKey (ep : Endpoint) : Str := epKey ep.method ep.path

/-- The traversal loop of analyzeRouteFile applied to the endpoints
extracted from a file, in source order, starting from the current map. -/
def buildEndpointMap (m : List (Str × Endpoint)) :
    List Endpoint → List (Str × Endpoint)
  | [] => m
  | ep :: rest => buildEndpointMap (mapSet m (endpointMapKey ep) ep) rest

/-- Spec-side helper: the last declaration in the list bearing a given
key. -/
def lastWith (k : Str) : List Endpoint → Option Endpoint
  | [] => none
  | ep :: rest =>
    match lastWith k rest with
    | some r => some r
    | none => if endpointMapKey ep = k then some ep else none

/-- C4 counterexample data: two route declarations with the same
normalized key, distinguishable by their auth middleware. -/
def C4e1 : Endpoint :=
  { method := str "GET", path := str "/api/users", params := [],
    queryParams := [], expectedBody := [], middleware := [str "requireAuth"],
    requiresAuth := true, used := false }

/-- C4 counterexample data: the later declaration for the same key. -/
def C4e2 : Endpoint :=
  { method := str "GET", path := str "/api/users", params := [],
    queryParams := [], expectedBody := [], middleware := [],
    requiresAuth := false, used := false }

/-! ## SecurityValidator (src/src/validators/SecurityValidator.js)

The four passes of `validate` in source order.  Configured
`requireAuthPatterns` are modelled as string patterns (matched by
case-insensitive substring, the `key.toLowerCase().includes(...)` branch);
`RegExp`-valued config patterns are out of scope of the claims, which
concern the default configuration.  The anchored regexes of
`isExemptFromAuth` are translated to the equivalent suffix / substring /
whole-string tests; `/^GET .*\.(css|js|png|jpg|gif|ico)$/` becomes a
`GET `-prefix test plus an extension-suffix test, which agrees with the
regex on every string (prefix and suffix cannot overlap, since a match
needs at least 8 characters). -/

/-- The configuration read by SecurityValidator. -/
structure SecurityRules : Type where
  sensitiveEndpointNoAuth : Option Str
  missingAuth : Option Str
  requireAuthPatterns : List Str
  publicEndpoints : List Str
  sensitiveMethods : Option (List Str)
deriving DecidableEq

/-- The built-in keyword list of isSensitiveEndpoint. -/
def sensitiveKeywords : List Str :=
  [str "admin", str "delete", str "remove", str "destroy", str "create",
   str "add", str "update", str "edit", str "modify", str "password",
   str "auth", str "login", str "register", str "user", str "profile",
   str "settings", str "config", str "upload", str "file"]

/-- SecurityValidator.isSensitiveEndpoint: a configured pattern matches
(case-insensitive substring) or a built-in keyword occurs in the key.
There is no exemption allowlist in this function. -/
def isSensitiveEndpoint (rules : SecurityRules) (key : Str) : Bool :=
  (rules.requireAuthPatterns.any fun pat =>
    containsSub (lowerL key) (lowerL pat)) ||
  (sensitiveKeywords.any fun kw => containsSub (lowerL key) kw)

/-- SecurityValidator.validateAuthenticationRequirements. -/
def validateAuthenticationRequirements (rules : SecurityRules)
    (E : List (Str × Endpoint)) : List Issue :=
  E.filterMap fun p =>
    if isSensitiveEndpoint rules p.1 && !p.2.requiresAuth then
      some { type := .SENSITIVE_ENDPOINT_NO_AUTH,
             severity := jsOr rules.sensitiveEndpointNoAuth (str "CRITICAL"),
             endpoint := p.1, detail := [] }
    else none

/-- SecurityValidator.validateFrontendAuthentication. -/
def validateFrontendAuthentication (rules : SecurityRules)
    (E : List (Str × Endpoint)) : List (Str × List Call) → List Issue
  | [] => []
  | (key, calls) :: rest =>
    (match mapGet E key with
     | some ep =>
       if ep.requiresAuth then
         calls.filterMap fun call =>
           if !call.hasAuth then
             some { type := .MISSING_AUTH_HEADER,
                    severity := jsOr rules.missingAuth (str "HIGH"),
                    endpoint := key, detail := [] }
           else none
       else []
     | none => []) ++ validateFrontendAuthentication rules E rest

/-- SecurityValidator.isPublicEndpoint (string patterns, with a trailing
`*` wildcard). -/
def isPublicEndpoint (key : Str) (patterns : List Str) : Bool :=
  patterns.any fun pat =>
    if lastChar pat = some '*' then startsWithL key (dropLastL pat)
    else key == pat

/-- SecurityValidator.validatePublicEndpoints. -/
def validatePublicEndpoints (rules : SecurityRules)
    (E : List (Str × Endpoint)) : List Issue :=
  E.filterMap fun p =>
    if isPublicEndpoint p.1 rules.publicEndpoints && p.2.requiresAuth then
      some { type := .PUBLIC_ENDPOINT_HAS_AUTH, severity := str "MEDIUM",
             endpoint := p.1, detail := [] }
    else none

/-- SecurityValidator.isExemptFromAuth: the built-in exemption allowlist
(health checks, static assets, login/register/password-reset, the site
root, static file extensions). -/
def isExemptFromAuth (key : Str) : Bool :=
  endsWithL key (str "/health") || endsWithL key (str "/status") ||
  endsWithL key (str "/version") || endsWithL key (str "/ping") ||
  containsSub key (str "/public/") || containsSub key (str "/static/") ||
  containsSub key (str "/assets/") ||
  key == str "GET /" ||
  (startsWithL key (str "GET ") &&
    (endsWithL key (str ".css") || endsWithL key (str ".js") ||
     endsWithL key (str ".png") || endsWithL key (str ".jpg") ||
     endsWithL key (str ".gif") || endsWithL key (str ".ico"))) ||
  endsWithL key (str "/auth/login") || endsWithL key (str "/auth/register") ||
  endsWithL key (str "/auth/forgot-password") ||
  endsWithL key (str "/auth/reset-password")

/-- `this.rules.security?.sensitiveMethods || ['POST','PUT','PATCH','DELETE']`
(a configured array, even an empty one, is truthy in JS). -/
def sensitiveMethodsOf (rules : SecurityRules) : List Str :=
  match rules.sensitiveMethods with
  | some l => l
  | none => [str "POST", str "PUT", str "PATCH", str "DELETE"]

/-- SecurityValidator.validateSensitiveMethods (the only pass consulting
the exemption allowlist). -/
def validateSensitiveMethods (rules : SecurityRules)
    (E : List (Str × Endpoint)) : List Issue :=
  E.filterMap fun p =>
    if (sensitiveMethodsOf rules).contains p.2.method && !p.2.requiresAuth &&
        !(isExemptFromAuth p.1) then
      some { type := .SENSITIVE_METHOD_NO_AUTH, severity := str "HIGH",
             endpoint := p.1, detail := [] }
    else none

/-- SecurityValidator.validate: the four passes in order. -/
def securityValidate (rules : SecurityRules) (E : List (Str × Endpoint))
    (FC : List (Str × List Call)) : List Issue :=
  validateAuthenticationRequirements rules E ++
  validateFrontendAuthentication rules E FC ++
  validatePublicEndpoints rules E ++
  validateSensitiveMethods rules E

/-- Default (unconfigured) SecurityValidator rules. -/
def secRulesDefault : SecurityRules := ⟨none, none, [], [], none⟩

/-- C5 counterexample data: a login endpoint without auth middleware. -/
def C5endpoint : Endpoint :=
  { method := str "POST", path := str "/auth/login", params := [],
    queryParams := [], expectedBody := [], middleware := [],
    requiresAuth := false, used := false }

/-- C5 counterexample data: the endpoint map. -/
def C5E : List (Str × Endpoint) := [(str "POST /auth/login", C5endpoint)]

/-! ## CacheManager.get (src/src/utils/CacheManager.js:57-104)

The cache is modelled as explicit state: the in-memory NodeCache as a map
from memory keys to (truthy) values, the disk as a map from file paths to
files.  A file carries its mtime and the result of `JSON.parse` on its
contents: `parsed = none` models a throw (corrupt file), which lands in
the catch block.  The float comparison `(now - mtime) / 1000 > maxAge` is
modelled multiplicatively as `now - mtime > maxAge * 1000`, equivalent
for division by the positive constant 1000.  Statistics counters and the
memory-cache TTL argument are not modelled. -/

/-- The parsed content of a cache file (`{data, expires, ...}`). -/
structure CacheEntry (V : Type) : Type where
  data : V
  expires : Option Int
deriving DecidableEq

/-- A file on disk: its mtime and what `JSON.parse` yields on it. -/
structure DiskFile (V : Type) : Type where
  mtimeMs : Int
  parsed : Option (CacheEntry V)
deriving DecidableEq

/-- Cache state: memory cache and disk contents. -/
structure CacheState (V : Type) : Type where
  mem : List (Str × V)
  disk : List (Str × DiskFile V)
deriving DecidableEq

/-- The CacheManager configuration used by `get`. -/
structure CacheConfig : Type where
  maxAge : Int
deriving DecidableEq

/-- `fs.unlinkSync` on the file map. -/
def mapDelete {α : Type} : List (Str × α) → Str → List (Str × α)
  | [], _ => []
  | (k', v) :: rest, k => if k' = k then rest else (k', v) :: mapDelete rest k

/-- The memory-cache key `` `${category}:${key}` ``. -/
def memKeyOf (category key : Str) : Str := category ++ ':' :: key

/-- The disk path `path.join(this.cacheDir, category, `${key}.json`)`,
relative to the cache directory. -/
def diskPathOf (category key : Str) : Str :=
  category ++ '/' :: (key ++ str ".json")

/-- CacheManager.get as a state transformer: the returned value and the
state after the call. -/
def cacheGet {V : Type} (cfg : CacheConfig) (st : CacheState V)
    (key category : Str) (now : Int) : Option V × CacheState V :=
  let memKey := memKeyOf category key
  match mapGet st.mem memKey with
  | some v => (some v, st)
  | none =>
    let filePath := diskPathOf category key
    match mapGet st.disk filePath with
    | none => (none, st)
    | some f =>
      if now - f.mtimeMs > cfg.maxAge * 1000 then
        (none, { st with disk := mapDelete st.disk filePath })
      else
        match f.parsed with
        | none => (none, st)
        | some cached =>
          let expired := match cached.expires with
            | some e => !(e == 0) && decide (now > e)
            | none => false
          if expired then (none, { st with disk := mapDelete st.disk filePath })
          else (some cached.data, { st with mem := mapSet st.mem memKey cached.data })

/-- C6 counterexample data: a young but corrupt (unparsable) cache file
on disk, with an empty memory cache. -/
def C6state : CacheState Nat :=
  { mem := [],
    disk := [(diskPathOf (str "files") (str "k"),
      { mtimeMs := 0, parsed := none })] }

/-- C6 counterexample data: the default configuration (maxAge 86400
seconds). -/
def C6cfg : CacheConfig := { maxAge := 86400 }

/-! ## ComponentValidator (ComponentValidator.js)

The full `validate` pipeline: the usage-marking loop of
validateComponentUsage (with its simulated import extraction), the
duplicate detection (called twice: once at the end of
validateComponentUsage and once directly by validate), the unused-report
pass and the props-consistency pass.  The null-input guard of `validate`
concerns absent record sets and is outside the model (both maps are given
here).  The non-global regex replaces inside the name normalizer are
translated as first-occurrence replacements with the alternation order of
the regex. -/

/-- The severity override read by ComponentValidator. -/
structure ComponentRules : Type where
  unusedComponent : Option Str
deriving DecidableEq

/-- A design-system Component record (fields read by the validator;
props pair a name with its hasDefault flag). -/
structure DSComponent : Type where
  name : Str
  file : Str
  used : Bool
  usedIn : List Str
  props : List (Str × Bool)
deriving DecidableEq

/-- A frontend Component record (fields read by the validator). -/
structure FComponent : Type where
  name : Str
  file : Str
deriving DecidableEq

/-- One import specifier (`{imported, local}`). -/
structure ImportSpec : Type where
  imported : Str
  localName : Str
deriving DecidableEq

/-- One import record as produced by extractImportsFromFrontend. -/
structure ImportRecord : Type where
  source : Str
  specifiers : List ImportSpec
  isDefault : Bool
  defaultName : Option Str
deriving DecidableEq

/-- The constant simulated import pushed per frontend component
(extractImportsFromFrontend is explicitly a simulation in the source). -/
def simulatedImport : ImportRecord :=
  { source := str "@design-system/components",
    specifiers := [⟨str "Button", str "Button"⟩, ⟨str "Input", str "Input"⟩],
    isDefault := false, defaultName := none }

/-- `imports.get(file).push(record)` with creation on first use. -/
def mapPush {α : Type} (m : List (Str × List α)) (k : Str) (v : α) :
    List (Str × List α) :=
  match mapGet m k with
  | none => mapSet m k [v]
  | some l => mapSet m k (l ++ [v])

/-- ComponentValidator.extractImportsFromFrontend. -/
def extractImportsAux (acc : List (Str × List ImportRecord)) :
    List (Str × FComponent) → List (Str × List ImportRecord)
  | [] => acc
  | (_, comp) :: rest => extractImportsAux (mapPush acc comp.file simulatedImport) rest

/-- ComponentValidator.extractImportsFromFrontend (entry point). -/
def extractImportsFromFrontend (fc : List (Str × FComponent)) :
    List (Str × List ImportRecord) :=
  extractImportsAux [] fc

/-- Helper for the `/@.*needle/` patterns: an `@` occurs with the needle
somewhere after it. -/
def atThenContains (needle : Str) : Str → Bool
  | [] => false
  | c :: rest => (c = '@' && containsSub rest needle) || atThenContains needle rest

/-- ComponentValidator.isDesignSystemImport. -/
def isDesignSystemImport (source : Str) : Bool :=
  atThenContains (str "design-system") source ||
  atThenContains (str "ui") source ||
  atThenContains (str "components") source ||
  containsSub source (str "design-system") ||
  containsSub source (str "ui-kit") ||
  containsSub source (str "component-library") ||
  containsSub source (str "../design-system") ||
  containsSub source (str "../components")

/-- `component.used = true; component.usedIn.push(file)` on the map entry
with the given key (a no-op when the key is absent, matching the
`dsComponentNames.has(...)` guard). -/
def markComponentUsed : List (Str × DSComponent) → Str → Str →
    List (Str × DSComponent)
  | [], _, _ => []
  | (k, c) :: rest, name, file =>
    if k = name then
      (k, { c with used := true, usedIn := c.usedIn ++ [file] }) :: rest
    else (k, c) :: markComponentUsed rest name file

/-- The `imp.specifiers.forEach(spec => ...)` loop
(`componentName = spec.imported || spec.local`). -/
def applySpecifiers (file : Str) :
    List (Str × DSComponent) → List ImportSpec → List (Str × DSComponent)
  | ds, [] => ds
  | ds, spec :: rest =>
    applySpecifiers file
      (markComponentUsed ds
        (if spec.imported = [] then spec.localName else spec.imported) file)
      rest

/-- One import record's marking effect, including the default-import
branch. -/
def applyImport (ds : List (Str × DSComponent)) (file : Str)
    (imp : ImportRecord) : List (Str × DSComponent) :=
  if isDesignSystemImport imp.source then
    let ds1 := applySpecifiers file ds imp.specifiers
    if imp.isDefault then
      match imp.defaultName with
      | some dn => if dn ≠ [] then markComponentUsed ds1 dn file else ds1
      | none => ds1
    else ds1
  else ds

/-- The `importInfo.forEach(imp => ...)` loop. -/
def applyImports (file : Str) :
    List (Str × DSComponent) → List ImportRecord → List (Str × DSComponent)
  | ds, [] => ds
  | ds, imp :: rest => applyImports file (applyImport ds file imp) rest

/-- The `frontendImports.forEach((importInfo, file) => ...)` loop. -/
def applyImportMap :
    List (Str × DSComponent) → List (Str × List ImportRecord) →
      List (Str × DSComponent)
  | ds, [] => ds
  | ds, (file, imps) :: rest => applyImportMap (applyImports file ds imps) rest

/-- The state effect of validateComponentUsage's marking loop. -/
def markUsage (ds : List (Str × DSComponent)) (fc : List (Str × FComponent)) :
    List (Str × DSComponent) :=
  applyImportMap ds (extractImportsFromFrontend fc)

/-- The Levenshtein distance computed by the DP matrix of
levenshteinDistance (standard edit distance). -/
def levDist : Str → Str → Nat
  | [], t => t.length
  | s, [] => s.length
  | a :: s, b :: t =>
    if a = b then levDist s t
    else 1 + min (levDist s t) (min (levDist (a :: s) t) (levDist s (b :: t)))
termination_by s t => s.length + t.length
decreasing_by all_goals (simp only [List.length_cons]; omega)

/-- `s.endsWith(suf)`-guarded removal: `replace(/suf$/, '')`. -/
def dropTailMatch (s suf : Str) : Str :=
  if endsWithL s suf then s.take (s.length - suf.length) else s

/-- Anchored removal: `replace(/^pre/, '')`. -/
def dropHeadMatch (s pre : Str) : Str :=
  if startsWithL s pre then s.drop pre.length else s

/-- One `replace(/p1|p2/, repl)` step: replace the first occurrence of
`p1` or `p2` (preferring `p1` at each position, as regex alternation
does) by `repl`. -/
def replaceFirst2 (p1 p2 repl : Str) : Str → Str
  | [] => []
  | c :: rest =>
    if startsWithL (c :: rest) p1 then repl ++ (c :: rest).drop p1.length
    else if startsWithL (c :: rest) p2 then repl ++ (c :: rest).drop p2.length
    else c :: replaceFirst2 p1 p2 repl rest

/-- The `normalize` closure of areComponentsSimilar: lower-case, strip a
trailing `component`, a leading `ui`, a leading `ds`, then fold the
synonym pairs. -/
def normalizeName (name : Str) : Str :=
  replaceFirst2 (str "card") (str "panel") (str "card")
    (replaceFirst2 (str "modal") (str "dialog") (str "modal")
      (replaceFirst2 (str "input") (str "field") (str "input")
        (replaceFirst2 (str "button") (str "btn") (str "button")
          (dropHeadMatch
            (dropHeadMatch
              (dropTailMatch (lowerL name) (str "component"))
              (str "ui"))
            (str "ds")))))

/-- `calculateSimilarity(s1, s2) > 0.8`, computed exactly:
`(longer.length - distance) / longer.length > 0.8` iff
`5 * (longer.length - distance) > 4 * longer.length`, and `1.0 > 0.8`
when both strings are empty. -/
def similarityGt08 (s1 s2 : Str) : Bool :=
  let longer := if s1.length > s2.length then s1 else s2
  let shorter := if s1.length > s2.length then s2 else s1
  if longer.length = 0 then true
  else 5 * (longer.length - levDist longer shorter) > 4 * longer.length

/-- ComponentValidator.areComponentsSimilar. -/
def areComponentsSimilar (name1 name2 : Str) : Bool :=
  let norm1 := normalizeName name1
  let norm2 := normalizeName name2
  if norm1 = norm2 then true
  else if containsSub norm1 norm2 || containsSub norm2 norm1 then true
  else similarityGt08 norm1 norm2

/-- `Array.from(designSystemComponents.values()).find(ds =>
ds.name.toLowerCase() === n)`. -/
def findByLowerName : List (Str × DSComponent) → Str → Option DSComponent
  | [], _ => none
  | (_, c) :: rest, n => if lowerL c.name = n then some c else findByLowerName rest n

/-- ComponentValidator.detectIncorrectUsage.  A duplicate is reported only
when the similar design-system component is currently unused; the pass
mutates nothing. -/
def detectIncorrectUsage (ds : List (Str × DSComponent))
    (fc : List (Str × FComponent)) : List Issue :=
  fc.filterMap fun p =>
    match (ds.map fun q => lowerL q.1).find?
        (fun dsName => areComponentsSimilar (lowerL p.2.name) dsName) with
    | some similarName =>
      (match findByLowerName ds similarName with
       | some dsComp =>
         if !dsComp.used then
           some { type := .DUPLICATE_COMPONENT, severity := str "MEDIUM",
                  endpoint := p.2.name, detail := dsComp.name }
         else none
       | none => none)
    | none => none

/-- ComponentValidator.findUnusedComponents. -/
def findUnusedComponents (rules : ComponentRules)
    (ds : List (Str × DSComponent)) : List Issue :=
  ds.filterMap fun p =>
    if !p.2.used then
      some { type := .UNUSED_DS_COMPONENT,
             severity := jsOr rules.unusedComponent (str "LOW"),
             endpoint := p.1, detail := [] }
    else none

/-- ComponentValidator.validateBasicPropsUsage. -/
def validateBasicPropsUsage (dsComp : DSComponent) : List Issue :=
  if (dsComp.props.filter fun pr => !pr.2 && !(pr.1 == str "children")) ≠ [] then
    dsComp.usedIn.map fun file =>
      { type := .VERIFY_PROPS_USAGE, severity := str "LOW",
        endpoint := dsComp.name, detail := file }
  else []

/-- ComponentValidator.validatePropsConsistency. -/
def validatePropsConsistency : List (Str × DSComponent) → List Issue
  | [] => []
  | (_, c) :: rest =>
    (if c.used && !c.props.isEmpty then validateBasicPropsUsage c else []) ++
      validatePropsConsistency rest

/-- ComponentValidator.validate: the marking loop, then the four
issue-producing passes in call order (detectIncorrectUsage runs twice:
once from validateComponentUsage, once from validate). -/
def componentValidate (rules : ComponentRules) (ds : List (Str × DSComponent))
    (fc : List (Str × FComponent)) : List Issue :=
  let ds1 := markUsage ds fc
  detectIncorrectUsage ds1 fc ++ findUnusedComponents rules ds1 ++
    detectIncorrectUsage ds1 fc ++ validatePropsConsistency ds1

/-- Default (unconfigured) ComponentValidator rules. -/
def compRulesDefault : ComponentRules := ⟨none⟩

/-- C9 counterexample data: an unused design-system component `Card`. -/
def C9ds : List (Str × DSComponent) :=
  [(str "Card",
    { name := str "Card", file := str "ds/Card.jsx", used := false,
      usedIn := [], props := [] })]

/-- C9 counterexample data: a frontend component also called `Card`. -/
def C9fc : List (Str × FComponent) :=
  [(str "src/Card.jsx:Card",
    { name := str "Card", file := str "src/Card.jsx" })]

/-! ## Theorems -/

/-! ## Basic lemmas about the string primitives -/

/-- Strong induction on the length of a string, used for the scans that
consume more than one character per step. -/
theorem strInd {P : Str → Prop}
    (step : ∀ s : Str, (∀ t : Str, t.length < s.length → P t) → P s) :
    ∀ s, P s
  | s => step s (fun t _ht => strInd step t)
termination_by s => s.length
decreasing_by assumption

/-! Unfolding lemmas for the template scan; all later reasoning about
`tplRun` goes through these. -/

theorem tplRun_norm_nil : tplRun .norm [] = [] := rfl

theorem tplRun_dollar_nil : tplRun .dollar [] = ['$'] := rfl

theorem tplRun_inTpl_nil (content : Str) :
    tplRun (.inTpl content) [] = '$' :: '{' :: content := rfl

theorem tplRun_norm_ne (c : Char) (t : Str) (h : c ≠ '$') :
    tplRun .norm (c :: t) = c :: tplRun .norm t := by
  simp [tplRun, h]

theorem tplRun_norm_dollar (t : Str) :
    tplRun .norm ('$' :: t) = tplRun .dollar t := by
  simp [tplRun]

theorem tplRun_dollar_brace (t : Str) :
    tplRun .dollar ('{' :: t) = tplRun (.inTpl []) t := by
  simp [tplRun]

theorem tplRun_dollar_dollar (t : Str) :
    tplRun .dollar ('$' :: t) = '$' :: tplRun .dollar t := by
  simp [tplRun]

theorem tplRun_dollar_other (c : Char) (t : Str) (h1 : c ≠ '{') (h2 : c ≠ '$') :
    tplRun .dollar (c :: t) = '$' :: c :: tplRun .norm t := by
  simp [tplRun, h1, h2]

theorem tplRun_inTpl_ne (content : Str) (c : Char) (t : Str) (h : c ≠ '}') :
    tplRun (.inTpl content) (c :: t) = tplRun (.inTpl (content ++ [c])) t := by
  simp [tplRun, h]

theorem tplRun_inTpl_close_nil (t : Str) :
    tplRun (.inTpl []) ('}' :: t) = '$' :: '{' :: '}' :: tplRun .norm t := by
  simp [tplRun]

theorem tplRun_inTpl_close (content : Str) (t : Str) (h : content ≠ []) :
    tplRun (.inTpl content) ('}' :: t) = str ":param" ++ tplRun .norm t := by
  simp [tplRun, h]

/-- Two-character view: a `${` in the outer state enters the accumulator
state. -/
theorem tplRun_norm_tpl (t : Str) :
    tplRun .norm ('$' :: '{' :: t) = tplRun (.inTpl []) t := by
  rw [tplRun_norm_dollar, tplRun_dollar_brace]

/-- Two-character view: a `$` not followed by `{` is copied verbatim. -/
theorem tplRun_norm_dollar_ne (d : Char) (t : Str) (h : d ≠ '{') :
    tplRun .norm ('$' :: d :: t) = '$' :: tplRun .norm (d :: t) := by
  by_cases hd : d = '$'
  · subst hd
    rw [tplRun_norm_dollar, tplRun_dollar_dollar, tplRun_norm_dollar]
  · rw [tplRun_norm_dollar, tplRun_dollar_other d t h hd, tplRun_norm_ne d t hd]

theorem tplRun_norm_dollar_one : tplRun .norm ['$'] = ['$'] := rfl

theorem beforeChar_not_mem (sep : Char) : ∀ s : Str, sep ∉ beforeChar sep s := by
  intro s
  induction s with
  | nil => simp [beforeChar]
  | cons c rest ih =>
    by_cases h : c = sep
    · simp [beforeChar, h]
    · simp [beforeChar, h]
      exact ⟨fun hc => h hc.symm, ih⟩

theorem afterChar_eq_none (c : Char) : ∀ s : Str, c ∉ s → afterChar c s = none := by
  intro s
  induction s with
  | nil => intro; rfl
  | cons d rest ih =>
    intro h
    simp only [List.mem_cons, not_or] at h
    have hd : ¬d = c := fun he => h.1 he.symm
    simp [afterChar, hd, ih h.2]

theorem mem_ensureLeadingSlash {c : Char} {s : Str}
    (h : c ∈ ensureLeadingSlash s) : c = '/' ∨ c ∈ s := by
  unfold ensureLeadingSlash at h
  by_cases hs : startsWithL s (str "/") = true
  · rw [if_pos hs] at h; right; exact h
  · rw [if_neg hs] at h
    rcases List.mem_cons.mp h with h | h
    · left; exact h
    · right; exact h

theorem tplRun_qfree :
    ∀ s : Str, ∀ st : TState, '?' ∉ s →
      (∀ content, st = .inTpl content → '?' ∉ content) →
      '?' ∉ tplRun st s := by
  intro s
  induction s with
  | nil =>
    intro st _ hst
    match st with
    | .norm => simp [tplRun_norm_nil]
    | .dollar => simp [tplRun_dollar_nil]
    | .inTpl content =>
      intro hmem
      rw [tplRun_inTpl_nil] at hmem
      simp at hmem
      exact hst content rfl hmem
  | cons c rest ih =>
    intro st hs hst
    simp only [List.mem_cons, not_or] at hs
    match st with
    | .norm =>
      by_cases hc : c = '$'
      · subst hc
        rw [tplRun_norm_dollar]
        exact ih .dollar hs.2 (by simp)
      · rw [tplRun_norm_ne c rest hc]
        intro hmem
        rcases List.mem_cons.mp hmem with h | h
        · exact hs.1 h
        · exact ih .norm hs.2 (by simp) h
    | .dollar =>
      by_cases hb : c = '{'
      · subst hb
        rw [tplRun_dollar_brace]
        refine ih (.inTpl []) hs.2 ?_
        intro content h
        injection h with h
        subst h
        simp
      · by_cases hd : c = '$'
        · subst hd
          rw [tplRun_dollar_dollar]
          intro hmem
          rcases List.mem_cons.mp hmem with h | h
          · exact absurd h (by decide)
          · exact ih .dollar hs.2 (by simp) h
        · rw [tplRun_dollar_other c rest hb hd]
          intro hmem
          rcases List.mem_cons.mp hmem with h | h
          · exact absurd h (by decide)
          · rcases List.mem_cons.mp h with h | h
            · exact hs.1 h
            · exact ih .norm hs.2 (by simp) h
    | .inTpl content =>
      by_cases hc : c = '}'
      · subst hc
        by_cases hcon : content = []
        · subst hcon
          rw [tplRun_inTpl_close_nil]
          intro hmem
          simp only [List.mem_cons] at hmem
          rcases hmem with h | h | h | h
          · exact absurd h (by decide)
          · exact absurd h (by decide)
          · exact absurd h (by decide)
          · exact ih .norm hs.2 (by simp) h
        · rw [tplRun_inTpl_close content rest hcon]
          intro hmem
          rcases List.mem_append.mp hmem with h | h
          · exact absurd h (by decide)
          · exact ih .norm hs.2 (by simp) h
      · rw [tplRun_inTpl_ne content c rest hc]
        refine ih (.inTpl (content ++ [c])) hs.2 ?_
        intro content' hco
        injection hco with hco
        subst hco
        intro hmem
        rcases List.mem_append.mp hmem with h | h
        · exact hst content rfl h
        · simp at h
          exact hs.1 h

theorem noDouble_nil : noDouble [] = true := rfl

theorem noDouble_one (c : Char) : noDouble [c] = true := rfl

theorem noDouble_cons_cons (c d : Char) (t : Str) :
    noDouble (c :: d :: t) = ((!(c = '/' && d = '/')) && noDouble (d :: t)) := rfl

theorem collapse_cons : ∀ (t : Str) (d : Char), ∃ u, collapseSlashes (d :: t) = d :: u := by
  intro t
  induction t with
  | nil => intro d; exact ⟨[], rfl⟩
  | cons e t' ih =>
    intro d
    by_cases h : d = '/' ∧ e = '/'
    · obtain ⟨u, hu⟩ := ih e
      refine ⟨u, ?_⟩
      rw [show collapseSlashes (d :: e :: t') = collapseSlashes (e :: t') by
        simp [collapseSlashes, h.1, h.2], hu, h.1, h.2]
    · refine ⟨collapseSlashes (e :: t'), ?_⟩
      have hb : (d = '/' && e = '/') = false := by
        rcases not_and_or.mp h with h | h <;> simp [h]
      simp [collapseSlashes, hb]

theorem collapse_noDouble : ∀ s : Str, noDouble (collapseSlashes s) = true := by
  intro s
  induction s with
  | nil => rfl
  | cons c rest ih =>
    match rest with
    | [] => rfl
    | d :: t =>
      by_cases h : c = '/' ∧ d = '/'
      · rw [show collapseSlashes (c :: d :: t) = collapseSlashes (d :: t) by
          simp [collapseSlashes, h.1, h.2]]
        exact ih
      · have hb : (c = '/' && d = '/') = false := by
          rcases not_and_or.mp h with h | h <;> simp [h]
        rw [show collapseSlashes (c :: d :: t) = c :: collapseSlashes (d :: t) by
          simp [collapseSlashes, hb]]
        obtain ⟨u, hu⟩ := collapse_cons t d
        rw [hu]
        rw [hu] at ih
        rw [noDouble_cons_cons]
        simp only [hb, Bool.not_false, Bool.true_and]
        exact ih

theorem noDouble_collapse : ∀ s : Str, noDouble s = true → collapseSlashes s = s := by
  intro s
  induction s with
  | nil => intro; rfl
  | cons c rest ih =>
    intro h
    match rest with
    | [] => rfl
    | d :: t =>
      rw [noDouble_cons_cons] at h
      simp only [Bool.and_eq_true, Bool.not_eq_true'] at h
      rw [show collapseSlashes (c :: d :: t) = c :: collapseSlashes (d :: t) by
        simp [collapseSlashes, h.1]]
      rw [ih h.2]

theorem dropLastL_cons_cons (c d : Char) (t : Str) :
    dropLastL (c :: d :: t) = c :: dropLastL (d :: t) := rfl

theorem dropLastL_length : ∀ s : Str, (dropLastL s).length = s.length - 1 := by
  intro s
  induction s with
  | nil => rfl
  | cons c rest ih =>
    match rest with
    | [] => rfl
    | d :: t =>
      rw [dropLastL_cons_cons]
      simp only [List.length_cons]
      have := ih
      simp only [List.length_cons] at this ⊢
      omega

theorem noDouble_dropLast : ∀ s : Str, noDouble s = true → noDouble (dropLastL s) = true := by
  intro s
  induction s with
  | nil => intro; rfl
  | cons c rest ih =>
    intro h
    match rest with
    | [] => rfl
    | d :: t =>
      rw [noDouble_cons_cons] at h
      simp only [Bool.and_eq_true] at h
      rw [dropLastL_cons_cons]
      match t with
      | [] => rfl
      | e :: u =>
        rw [dropLastL_cons_cons, noDouble_cons_cons, ← dropLastL_cons_cons]
        simp only [Bool.and_eq_true]
        exact ⟨h.1, ih h.2⟩

theorem lastChar_cons_cons (c d : Char) (t : Str) :
    lastChar (c :: d :: t) = lastChar (d :: t) := rfl

theorem noDouble_lastPair :
    ∀ s : Str, noDouble s = true → 1 < s.length → lastChar s = some '/' →
      lastChar (dropLastL s) ≠ some '/' := by
  intro s
  induction s with
  | nil => intro _ h; simp at h
  | cons c rest ih =>
    intro h hlen hlast
    match rest with
    | [] => simp at hlen
    | d :: t =>
      rw [noDouble_cons_cons] at h
      simp only [Bool.and_eq_true, Bool.not_eq_true'] at h
      match t with
      | [] =>
        have hd : d = '/' := by
          rw [show lastChar [c, d] = some d from rfl] at hlast
          injection hlast
        have hc : ¬c = '/' := by
          intro hc
          rw [hc, hd] at h
          simp at h
        rw [show dropLastL [c, d] = [c] from rfl]
        intro hcl
        rw [show lastChar [c] = some c from rfl] at hcl
        injection hcl with hcl
        exact hc hcl
      | e :: u =>
        rw [lastChar_cons_cons] at hlast
        rw [dropLastL_cons_cons,
          show dropLastL (d :: e :: u) = d :: dropLastL (e :: u) from rfl,
          lastChar_cons_cons]
        exact ih h.2 (by simp) hlast

theorem startsWith_slash_ex {s : Str} (h : startsWithL s (str "/") = true) :
    ∃ t, s = '/' :: t := by
  match s with
  | [] => simp [startsWithL, str] at h
  | c :: t =>
    refine ⟨t, ?_⟩
    have : (c = '/' && startsWithL t []) = true := h
    simp only [startsWithL, Bool.and_true] at this
    simp only [decide_eq_true_eq] at this
    rw [this]

theorem startsWithL_empty (s : Str) : startsWithL s [] = true := by
  cases s <;> rfl

theorem startsWith_slash_cons (t : Str) : startsWithL ('/' :: t) (str "/") = true := by
  show (('/' : Char) = '/' && startsWithL t []) = true
  simp [startsWithL_empty]

theorem ensureLeadingSlash_starts (s : Str) :
    startsWithL (ensureLeadingSlash s) (str "/") = true := by
  unfold ensureLeadingSlash
  by_cases h : startsWithL s (str "/") = true
  · rw [if_pos h]; exact h
  · rw [if_neg h]; exact startsWith_slash_cons s

theorem noDouble_ensureLeadingSlash (s : Str) (h : noDouble s = true) :
    noDouble (ensureLeadingSlash s) = true := by
  unfold ensureLeadingSlash
  by_cases hs : startsWithL s (str "/") = true
  · rw [if_pos hs]; exact h
  · rw [if_neg hs]
    match s with
    | [] => rfl
    | c :: t =>
      have hc : ¬c = '/' := by
        intro hc
        subst hc
        exact hs (startsWith_slash_cons t)
      rw [noDouble_cons_cons]
      simp only [Bool.and_eq_true, Bool.not_eq_true']
      exact ⟨by simp [hc], h⟩

/-- The output of normalizePath is in canonical form: leading slash, no
repeated slashes, no trailing slash unless the whole path is `/`. -/
theorem normalizePath_normal (s : Str) :
    noDouble (normalizePath s) = true ∧
    startsWithL (normalizePath s) (str "/") = true ∧
    ¬(1 < (normalizePath s).length ∧ lastChar (normalizePath s) = some '/') := by
  unfold normalizePath stripTrailingSlash
  set z := ensureLeadingSlash (collapseSlashes s) with hz
  have hnd : noDouble z = true :=
    noDouble_ensureLeadingSlash _ (collapse_noDouble s)
  have hst : startsWithL z (str "/") = true := ensureLeadingSlash_starts _
  by_cases hcond : 1 < z.length ∧ lastChar z = some '/'
  · rw [if_pos hcond]
    refine ⟨noDouble_dropLast z hnd, ?_, ?_⟩
    · obtain ⟨t, ht⟩ := startsWith_slash_ex hst
      match t, ht with
      | [], ht => rw [ht] at hcond; simp at hcond
      | d :: u, ht =>
        rw [ht, dropLastL_cons_cons]
        exact startsWith_slash_cons _
    · intro hcl
      exact noDouble_lastPair z hnd hcond.1 hcond.2 hcl.2
  · rw [if_neg hcond]
    exact ⟨hnd, hst, hcond⟩

/-- normalizePath is the identity on canonical paths. -/
theorem normalizePath_fix (s : Str)
    (h1 : noDouble s = true)
    (h2 : startsWithL s (str "/") = true)
    (h3 : ¬(1 < s.length ∧ lastChar s = some '/')) :
    normalizePath s = s := by
  unfold normalizePath stripTrailingSlash
  rw [noDouble_collapse s h1]
  rw [show ensureLeadingSlash s = s by unfold ensureLeadingSlash; rw [if_pos h2]]
  rw [if_neg h3]

theorem normalizePath_idem (s : Str) :
    normalizePath (normalizePath s) = normalizePath s := by
  obtain ⟨h1, h2, h3⟩ := normalizePath_normal s
  exact normalizePath_fix _ h1 h2 h3

/-! ## Idempotence of the template replacement -/

theorem findClose_some :
    ∀ s b a : Str, findClose s = some (b, a) → s = b ++ '}' :: a ∧ '}' ∉ b := by
  intro s
  induction s with
  | nil => intro b a h; simp [findClose] at h
  | cons c rest ih =>
    intro b a h
    by_cases hc : c = '}'
    · subst hc
      rw [show findClose ('}' :: rest) = some ([], rest) by simp [findClose]] at h
      injection h with h
      injection h with h1 h2
      subst h1; subst h2
      simp
    · rw [show findClose (c :: rest) =
          (match findClose rest with
           | some (b, a) => some (c :: b, a)
           | none => none) by simp [findClose, hc]] at h
      match hfc : findClose rest with
      | some (b', a') =>
        rw [hfc] at h
        simp only [Option.some.injEq, Prod.mk.injEq] at h
        obtain ⟨hb, ha⟩ := h
        subst hb; subst ha
        obtain ⟨ih1, ih2⟩ := ih b' a' hfc
        constructor
        · rw [List.cons_append, ih1]
        · simp only [List.mem_cons, not_or]
          exact ⟨fun he => hc he.symm, ih2⟩
      | none => rw [hfc] at h; simp at h

theorem findClose_none : ∀ s : Str, findClose s = none → '}' ∉ s := by
  intro s
  induction s with
  | nil => intro _; simp
  | cons c rest ih =>
    intro h
    by_cases hc : c = '}'
    · subst hc
      rw [show findClose ('}' :: rest) = some ([], rest) by simp [findClose]] at h
      simp at h
    · rw [show findClose (c :: rest) =
          (match findClose rest with
           | some (b, a) => some (c :: b, a)
           | none => none) by simp [findClose, hc]] at h
      match hfc : findClose rest with
      | some (b', a') => rw [hfc] at h; simp at h
      | none =>
        simp only [List.mem_cons, not_or]
        exact ⟨fun he => hc he.symm, ih hfc⟩

/-- On a string with no `}`, the scan copies everything verbatim from any
state. -/
theorem tplRun_no_close :
    ∀ s : Str, '}' ∉ s →
      tplRun .norm s = s ∧ tplRun .dollar s = '$' :: s ∧
      ∀ content, tplRun (.inTpl content) s = '$' :: '{' :: (content ++ s) := by
  intro s
  induction s with
  | nil => intro _; refine ⟨rfl, rfl, fun content => ?_⟩; simp [tplRun_inTpl_nil]
  | cons c rest ih =>
    intro h
    simp only [List.mem_cons, not_or] at h
    obtain ⟨ihn, ihd, ihi⟩ := ih h.2
    refine ⟨?_, ?_, ?_⟩
    · by_cases hc : c = '$'
      · subst hc; rw [tplRun_norm_dollar, ihd]
      · rw [tplRun_norm_ne c rest hc, ihn]
    · by_cases hb : c = '{'
      · subst hb
        rw [tplRun_dollar_brace, ihi []]
        simp
      · by_cases hd : c = '$'
        · subst hd; rw [tplRun_dollar_dollar, ihd]
        · rw [tplRun_dollar_other c rest hb hd, ihn]
    · intro content
      have hc : c ≠ '}' := fun he => h.1 he.symm
      rw [tplRun_inTpl_ne content c rest hc, ihi (content ++ [c])]
      simp

/-- When the remaining input does contain a closing `}` and the
accumulated-plus-scanned content is nonempty, the match completes and is
replaced by `:param`. -/
theorem tplRun_inTpl_match :
    ∀ s content b a : Str, findClose s = some (b, a) → content ++ b ≠ [] →
      tplRun (.inTpl content) s = str ":param" ++ tplRun .norm a := by
  intro s
  induction s with
  | nil => intro content b a h; simp [findClose] at h
  | cons c rest ih =>
    intro content b a h hne
    by_cases hc : c = '}'
    · subst hc
      rw [show findClose ('}' :: rest) = some ([], rest) by simp [findClose]] at h
      injection h with h
      injection h with h1 h2
      subst h1; subst h2
      simp only [List.append_nil] at hne
      exact tplRun_inTpl_close content rest hne
    · rw [show findClose (c :: rest) =
          (match findClose rest with
           | some (b, a) => some (c :: b, a)
           | none => none) by simp [findClose, hc]] at h
      match hfc : findClose rest with
      | some (b', a') =>
        rw [hfc] at h
        simp only [Option.some.injEq, Prod.mk.injEq] at h
        obtain ⟨hb, ha⟩ := h
        subst hb; subst ha
        rw [tplRun_inTpl_ne content c rest hc]
        exact ih (content ++ [c]) b' a' hfc (by simp)
      | none => rw [hfc] at h; simp at h

/-- Every nonempty output of the scan begins with the first input
character of the current chunk, with `$` or `:` for the pending states. -/
theorem tplRun_head :
    ∀ s : Str,
      (∀ content, ∃ x u, tplRun (.inTpl content) s = x :: u ∧ (x = '$' ∨ x = ':')) ∧
      (∃ x u, tplRun .dollar s = x :: u ∧ (x = '$' ∨ x = ':')) ∧
      (∀ d t, s = d :: t → ∃ x u, tplRun .norm s = x :: u ∧ (x = d ∨ x = '$' ∨ x = ':')) := by
  intro s
  induction s with
  | nil =>
    refine ⟨fun content => ⟨'$', '{' :: content, rfl, Or.inl rfl⟩,
      ⟨'$', [], rfl, Or.inl rfl⟩, fun d t h => by simp at h⟩
  | cons c rest ih =>
    obtain ⟨ihi, ihd, ihn⟩ := ih
    refine ⟨?_, ?_, ?_⟩
    · intro content
      by_cases hc : c = '}'
      · subst hc
        by_cases hcon : content = []
        · subst hcon
          exact ⟨'$', '{' :: '}' :: tplRun .norm rest, tplRun_inTpl_close_nil rest, Or.inl rfl⟩
        · exact ⟨':', str "param" ++ tplRun .norm rest,
            by rw [tplRun_inTpl_close content rest hcon]; rfl, Or.inr rfl⟩
      · rw [tplRun_inTpl_ne content c rest hc]
        exact ihi (content ++ [c])
    · by_cases hb : c = '{'
      · subst hb
        rw [tplRun_dollar_brace]
        exact ihi []
      · by_cases hd : c = '$'
        · subst hd
          rw [tplRun_dollar_dollar]
          exact ⟨'$', tplRun .dollar rest, rfl, Or.inl rfl⟩
        · rw [tplRun_dollar_other c rest hb hd]
          exact ⟨'$', c :: tplRun .norm rest, rfl, Or.inl rfl⟩
    · intro d t hdt
      injection hdt with hd ht
      subst hd
      by_cases hq : c = '$'
      · subst hq
        rw [tplRun_norm_dollar]
        obtain ⟨x, u, hx, hxe⟩ := ihd
        exact ⟨x, u, hx, Or.inr hxe⟩
      · rw [tplRun_norm_ne c rest hq]
        exact ⟨c, tplRun .norm rest, rfl, Or.inl rfl⟩

/-- The scan copies a literal `:param` through unchanged. -/
theorem tplRun_param_through (w : Str) :
    tplRun .norm (str ":param" ++ w) = str ":param" ++ tplRun .norm w := by
  show tplRun .norm (':' :: 'p' :: 'a' :: 'r' :: 'a' :: 'm' :: w) = _
  rw [tplRun_norm_ne _ _ (by decide), tplRun_norm_ne _ _ (by decide),
    tplRun_norm_ne _ _ (by decide), tplRun_norm_ne _ _ (by decide),
    tplRun_norm_ne _ _ (by decide), tplRun_norm_ne _ _ (by decide)]
  rfl

theorem replaceTpl_idem : ∀ s : Str, replaceTpl (replaceTpl s) = replaceTpl s := by
  unfold replaceTpl
  refine strInd (fun s ih => ?_)
  match s with
  | [] => rfl
  | c :: rest =>
    by_cases hc : c = '$'
    · subst hc
      match rest with
      | [] => rfl
      | d :: t =>
        by_cases hd : d = '{'
        · subst hd
          rw [tplRun_norm_tpl]
          match hfc : findClose t with
          | none =>
            have hraw := (tplRun_no_close t (findClose_none t hfc)).2.2 []
            simp only [List.nil_append] at hraw
            rw [hraw, tplRun_norm_tpl, hraw]
          | some (b, a) =>
            by_cases hb : b = []
            · subst hb
              obtain ⟨hsplit, _⟩ := findClose_some t [] a hfc
              simp only [List.nil_append] at hsplit
              subst hsplit
              rw [tplRun_inTpl_close_nil]
              have hlen : a.length < ('$' :: '{' :: '}' :: a).length := by
                simp only [List.length_cons]; omega
              have hIH := ih a hlen
              rw [tplRun_norm_tpl, tplRun_inTpl_close_nil, hIH]
            · have hmatch := tplRun_inTpl_match t [] b a hfc (by simpa using hb)
              rw [hmatch]
              obtain ⟨hsplit, _⟩ := findClose_some t b a hfc
              have hlen : a.length < ('$' :: '{' :: t).length := by
                rw [hsplit]
                simp only [List.length_cons, List.length_append]
                omega
              rw [tplRun_param_through, ih a hlen]
        · rw [tplRun_norm_dollar_ne d t hd]
          have hlen : (d :: t).length < ('$' :: d :: t).length := by
            simp only [List.length_cons]; omega
          have hIH : tplRun .norm (tplRun .norm (d :: t)) = tplRun .norm (d :: t) :=
            ih (d :: t) hlen
          obtain ⟨x, u, hx, hxe⟩ := (tplRun_head (d :: t)).2.2 d t rfl
          have hxb : x ≠ '{' := by
            rcases hxe with h | h | h
            · rw [h]; exact hd
            · rw [h]; decide
            · rw [h]; decide
          rw [hx, tplRun_norm_dollar_ne x u hxb, ← hx, hIH]
    · rw [tplRun_norm_ne c rest hc, tplRun_norm_ne c _ hc]
      have hlen : rest.length < (c :: rest).length := by
        simp only [List.length_cons]; omega
      rw [ih rest hlen]

theorem cleanEndpoint_qfree (s : Str) : '?' ∉ cleanEndpoint s := by
  unfold cleanEndpoint
  by_cases hs : s = []
  · simp [hs]
  · rw [if_neg hs]
    intro hmem
    rcases mem_ensureLeadingSlash hmem with h | h
    · exact absurd h (by decide)
    · exact tplRun_qfree _ .norm (beforeChar_not_mem '?' _) (by simp) h

theorem beforeChar_id (sep : Char) : ∀ s : Str, sep ∉ s → beforeChar sep s = s := by
  intro s
  induction s with
  | nil => intro _; rfl
  | cons c rest ih =>
    intro h
    simp only [List.mem_cons, not_or] at h
    have hc : ¬c = sep := fun he => h.1 he.symm
    rw [show beforeChar sep (c :: rest) = c :: beforeChar sep rest by
      simp [beforeChar, hc]]
    rw [ih h.2]

theorem stripHost_slash (t : Str) : stripHost ('/' :: t) = '/' :: t := by
  unfold stripHost
  rw [show (str "https://") = 'h' :: 't' :: 't' :: 'p' :: 's' :: ':' :: '/' :: '/' :: [] from rfl,
    show (str "http://") = 'h' :: 't' :: 't' :: 'p' :: ':' :: '/' :: '/' :: [] from rfl]
  simp [startsWithL]

theorem ensureLeadingSlash_id (s : Str) (h : startsWithL s (str "/") = true) :
    ensureLeadingSlash s = s := by
  unfold ensureLeadingSlash
  rw [if_pos h]

theorem cleanEndpoint_idem (s : Str) :
    cleanEndpoint (cleanEndpoint s) = cleanEndpoint s := by
  by_cases hs : s = []
  · subst hs
    rfl
  · have hy : cleanEndpoint s =
        ensureLeadingSlash (replaceTpl (takeBeforeQuery (stripHost s))) := by
      unfold cleanEndpoint
      rw [if_neg hs]
    have hstart : startsWithL (cleanEndpoint s) (str "/") = true := by
      rw [hy]; exact ensureLeadingSlash_starts _
    obtain ⟨t, ht⟩ := startsWith_slash_ex hstart
    have hq : takeBeforeQuery (cleanEndpoint s) = cleanEndpoint s :=
      beforeChar_id '?' _ (cleanEndpoint_qfree s)
    have hr : replaceTpl (cleanEndpoint s) = cleanEndpoint s := by
      rw [hy]
      unfold ensureLeadingSlash
      by_cases hw : startsWithL (replaceTpl (takeBeforeQuery (stripHost s))) (str "/") = true
      · rw [if_pos hw]
        exact replaceTpl_idem _
      · rw [if_neg hw]
        show tplRun .norm ('/' :: _) = _
        rw [tplRun_norm_ne _ _ (by decide)]
        rw [show tplRun .norm (replaceTpl (takeBeforeQuery (stripHost s))) =
            replaceTpl (replaceTpl (takeBeforeQuery (stripHost s))) from rfl]
        rw [replaceTpl_idem _]
    generalize hgen : cleanEndpoint s = y at hstart ht hq hr ⊢
    unfold cleanEndpoint
    rw [if_neg (by rw [ht]; simp), ht, stripHost_slash, ← ht, hq, hr]
    exact ensureLeadingSlash_id _ hstart

/-! ## Counting lemmas for the reconciliation run -/

theorem mem_filterMap_ite {α : Type} {l : List α} {cond : α → Bool}
    {f : α → Issue} {i : Issue}
    (h : i ∈ l.filterMap fun a => if cond a then some (f a) else none) :
    ∃ a ∈ l, cond a = true ∧ i = f a := by
  rcases List.mem_filterMap.mp h with ⟨a, ha, heq⟩
  by_cases hc : cond a = true
  · rw [if_pos hc] at heq
    injection heq with heq
    exact ⟨a, ha, hc, heq.symm⟩
  · rw [if_neg hc] at heq
    simp at heq

theorem countP_filterMap_ite {α : Type} (l : List α) (cond : α → Bool)
    (f : α → Issue) (p : Issue → Bool) :
    (l.filterMap fun a => if cond a then some (f a) else none).countP p
      = l.countP (fun a => cond a && p (f a)) := by
  induction l with
  | nil => rfl
  | cons a l ih =>
    rw [List.filterMap_cons]
    by_cases hc : cond a = true
    · rw [if_pos hc, List.countP_cons, List.countP_cons, ih, hc]
      simp
    · rw [if_neg hc, List.countP_cons, ih]
      simp only [Bool.not_eq_true] at hc
      rw [hc]
      simp

theorem usage_types (rules : EndpointRules) (ep : Endpoint) (call : Call) :
    ∀ i ∈ validateEndpointUsage rules ep call,
      i.type = .MISSING_URL_PARAM ∨ i.type = .EXTRA_URL_PARAM ∨
      i.type = .MISSING_BODY_FIELD ∨ i.type = .EXTRA_BODY_FIELD ∨
      i.type = .MISSING_QUERY_PARAM := by
  intro i hi
  unfold validateEndpointUsage at hi
  rcases List.mem_append.mp hi with hi | hi
  · rcases List.mem_append.mp hi with hi | hi
    · unfold validateURLParams at hi
      rcases List.mem_append.mp hi with hi | hi
      · obtain ⟨a, _, _, rfl⟩ := mem_filterMap_ite hi
        exact Or.inl rfl
      · obtain ⟨a, _, _, rfl⟩ := mem_filterMap_ite hi
        exact Or.inr (Or.inl rfl)
    · unfold validateRequestBody at hi
      by_cases hd : call.data = []
      · rw [if_pos hd] at hi
        simp at hi
      · rw [if_neg hd] at hi
        rcases List.mem_append.mp hi with hi | hi
        · obtain ⟨a, _, _, rfl⟩ := mem_filterMap_ite hi
          exact Or.inr (Or.inr (Or.inl rfl))
        · obtain ⟨a, _, _, rfl⟩ := mem_filterMap_ite hi
          exact Or.inr (Or.inr (Or.inr (Or.inl rfl)))
  · unfold validateQueryParams at hi
    obtain ⟨a, _, _, rfl⟩ := mem_filterMap_ite hi
    exact Or.inr (Or.inr (Or.inr (Or.inr rfl)))

theorem usage_countP_mbe (rules : EndpointRules) (ep : Endpoint) (call : Call) :
    (validateEndpointUsage rules ep call).countP (isType .MISSING_BACKEND_ENDPOINT) = 0 :=
  List.countP_eq_zero.mpr fun i hi => by
    rcases usage_types rules ep call i hi with h | h | h | h | h <;> simp [isType, h]

theorem usage_countP_unused (rules : EndpointRules) (ep : Endpoint) (call : Call) :
    (validateEndpointUsage rules ep call).countP (isType .UNUSED_ENDPOINT) = 0 :=
  List.countP_eq_zero.mpr fun i hi => by
    rcases usage_types rules ep call i hi with h | h | h | h | h <;> simp [isType, h]

theorem markUsed_isNone (k' k : Str) :
    ∀ m : List (Str × Endpoint),
      (mapGet (markUsed m k') k).isNone = (mapGet m k).isNone := by
  intro m
  induction m with
  | nil => rfl
  | cons a rest ih =>
    match a with
    | (ka, e) =>
      by_cases hq : ka = k'
      · subst hq
        by_cases hk : ka = k
        · subst hk
          simp [markUsed, mapGet]
        · simp [markUsed, mapGet, hk]
      · by_cases hk : ka = k
        · subst hk
          simp [markUsed, mapGet, hq]
        · simp [markUsed, mapGet, hq, hk, ih]

theorem processCalls_isNone (rules : EndpointRules) (key k : Str) :
    ∀ (calls : List Call) (m : List (Str × Endpoint)),
      (mapGet (processCalls rules key m calls).1 k).isNone = (mapGet m k).isNone := by
  intro calls
  induction calls with
  | nil => intro m; rfl
  | cons call calls ih =>
    intro m
    show (mapGet (processCalls rules key (processCall rules m key call).1 calls).1 k).isNone = _
    rw [ih]
    unfold processCall
    match hm : mapGet m key with
    | none => rfl
    | some ep => exact markUsed_isNone key k m

theorem processAllCalls_isNone (rules : EndpointRules) (k : Str) :
    ∀ (calls : List (Str × List Call)) (m : List (Str × Endpoint)),
      (mapGet (processAllCalls rules m calls).1 k).isNone = (mapGet m k).isNone := by
  intro calls
  induction calls with
  | nil => intro m; rfl
  | cons p rest ih =>
    intro m
    match p with
    | (key, cs) =>
      show (mapGet (processAllCalls rules (processCalls rules key m cs).1 rest).1 k).isNone = _
      rw [ih, processCalls_isNone]

theorem processCalls_mbe_count (rules : EndpointRules) (key : Str) :
    ∀ (calls : List Call) (m : List (Str × Endpoint)),
      ((processCalls rules key m calls).2).countP (isType .MISSING_BACKEND_ENDPOINT)
        = if (mapGet m key).isNone then calls.length else 0 := by
  intro calls
  induction calls with
  | nil =>
    intro m
    show (0 : Nat) = _
    by_cases h : (mapGet m key).isNone = true <;> simp [h]
  | cons call calls ih =>
    intro m
    show (((processCall rules m key call).2 ++
        (processCalls rules key (processCall rules m key call).1 calls).2).countP
        (isType .MISSING_BACKEND_ENDPOINT)) = _
    rw [List.countP_append]
    unfold processCall
    match hm : mapGet m key with
    | none =>
      rw [ih m]
      simp [hm, isType, List.countP_cons]
      omega
    | some ep =>
      have h1 : (mapGet (markUsed m key) key).isNone = (mapGet m key).isNone :=
        markUsed_isNone key key m
      rw [usage_countP_mbe, ih (markUsed m key), h1]
      simp [hm]

theorem countMissingCalls_congr (m m' : List (Str × Endpoint))
    (h : ∀ k, (mapGet m' k).isNone = (mapGet m k).isNone) :
    ∀ calls, countMissingCalls m' calls = countMissingCalls m calls := by
  intro calls
  induction calls with
  | nil => rfl
  | cons p rest ih =>
    unfold countMissingCalls at ih ⊢
    simp only [List.map_cons, List.sum_cons]
    rw [h p.1, ih]

theorem processAllCalls_mbe_count (rules : EndpointRules) :
    ∀ (calls : List (Str × List Call)) (m : List (Str × Endpoint)),
      ((processAllCalls rules m calls).2).countP (isType .MISSING_BACKEND_ENDPOINT)
        = countMissingCalls m calls := by
  intro calls
  induction calls with
  | nil => intro m; rfl
  | cons p rest ih =>
    intro m
    match p with
    | (key, cs) =>
      show (((processCalls rules key m cs).2 ++
          (processAllCalls rules (processCalls rules key m cs).1 rest).2).countP
          (isType .MISSING_BACKEND_ENDPOINT)) = _
      rw [List.countP_append, processCalls_mbe_count, ih,
        countMissingCalls_congr m (processCalls rules key m cs).1
          (fun k => processCalls_isNone rules key k cs m) rest]
      unfold countMissingCalls
      simp only [List.map_cons, List.sum_cons]

theorem mem_findUnusedEndpoints {rules : EndpointRules}
    {m : List (Str × Endpoint)} {i : Issue}
    (h : i ∈ findUnusedEndpoints rules m) :
    i.type = .UNUSED_ENDPOINT ∧ i.severity = jsOr rules.unusedEndpoint (str "LOW") := by
  unfold findUnusedEndpoints at h
  rcases List.mem_filterMap.mp h with ⟨a, _, heq⟩
  by_cases hu : a.2.used = true
  · rw [if_pos hu] at heq
    simp at heq
  · rw [if_neg hu] at heq
    injection heq with heq
    rw [← heq]
    exact ⟨rfl, rfl⟩

theorem findUnused_mbe_zero (rules : EndpointRules) (m : List (Str × Endpoint)) :
    (findUnusedEndpoints rules m).countP (isType .MISSING_BACKEND_ENDPOINT) = 0 :=
  List.countP_eq_zero.mpr fun i hi => by
    have h := (mem_findUnusedEndpoints hi).1
    simp [isType, h]

theorem findUnused_count (rules : EndpointRules) :
    ∀ m : List (Str × Endpoint),
      (findUnusedEndpoints rules m).countP (isType .UNUSED_ENDPOINT)
        = m.countP (fun p => !p.2.used) := by
  intro m
  induction m with
  | nil => rfl
  | cons a rest ih =>
    unfold findUnusedEndpoints at ih ⊢
    rw [List.filterMap_cons, List.countP_cons]
    by_cases hu : a.2.used = true
    · rw [if_pos hu, ih, hu]
      simp
    · rw [if_neg hu, List.countP_cons, ih]
      simp only [Bool.not_eq_true] at hu
      rw [hu]
      simp [isType]

theorem phase1_no_unused (rules : EndpointRules) :
    ∀ (calls : List (Str × List Call)) (m : List (Str × Endpoint)),
      ((processAllCalls rules m calls).2).countP (isType .UNUSED_ENDPOINT) = 0 := by
  have hc : ∀ (key : Str) (cs : List Call) (m : List (Str × Endpoint)),
      ((processCalls rules key m cs).2).countP (isType .UNUSED_ENDPOINT) = 0 := by
    intro key cs
    induction cs with
    | nil => intro m; rfl
    | cons call calls ih =>
      intro m
      show (((processCall rules m key call).2 ++
          (processCalls rules key (processCall rules m key call).1 calls).2).countP
          (isType .UNUSED_ENDPOINT)) = 0
      rw [List.countP_append]
      unfold processCall
      match hm : mapGet m key with
      | none =>
        rw [ih m]
        simp [isType]
      | some ep =>
        rw [usage_countP_unused, ih (markUsed m key)]
  intro calls
  induction calls with
  | nil => intro m; rfl
  | cons p rest ih =>
    intro m
    match p with
    | (key, cs) =>
      show (((processCalls rules key m cs).2 ++
          (processAllCalls rules (processCalls rules key m cs).1 rest).2).countP
          (isType .UNUSED_ENDPOINT)) = 0
      rw [List.countP_append, hc, ih]

theorem endpointValidate_eq (rules : EndpointRules) (E : List (Str × Endpoint))
    (C : List (Str × List Call)) :
    endpointValidate rules E C = (processAllCalls rules E C).2 ++
      findUnusedEndpoints rules (processAllCalls rules E C).1 := rfl

theorem countP_ext {α : Type} (l : List α) (p q : α → Bool)
    (h : ∀ a ∈ l, p a = q a) : l.countP p = l.countP q := by
  induction l with
  | nil => rfl
  | cons a t ih =>
    rw [List.countP_cons, List.countP_cons, h a (List.mem_cons_self a t),
      ih (fun b hb => h b (List.mem_cons_of_mem a hb))]

theorem countP_filterMap_ite_true {α : Type} (l : List α) (cond : α → Bool)
    (f : α → Issue) (ty : IssueType) (h : ∀ a, (f a).type = ty) :
    (l.filterMap fun a => if cond a then some (f a) else none).countP (isType ty)
      = l.countP cond := by
  rw [countP_filterMap_ite]
  exact countP_ext _ _ _ (fun a _ => by simp [isType, h a])

theorem countP_filterMap_ite_false {α : Type} (l : List α) (cond : α → Bool)
    (f : α → Issue) (ty : IssueType) (h : ∀ a, (f a).type ≠ ty) :
    (l.filterMap fun a => if cond a then some (f a) else none).countP (isType ty)
      = 0 := by
  rw [countP_filterMap_ite]
  exact List.countP_eq_zero.mpr fun a _ => by simp [isType, h a]

theorem processCalls_mbe_keys (rules : EndpointRules) (key : Str) :
    ∀ (cs : List Call) (m : List (Str × Endpoint)),
      ∀ i ∈ (processCalls rules key m cs).2,
        isType .MISSING_BACKEND_ENDPOINT i = true → mapGet m i.endpoint = none := by
  intro cs
  induction cs with
  | nil => intro m i hi; simp [processCalls] at hi
  | cons call calls ih =>
    intro m i hi hty
    have hi' : i ∈ (processCall rules m key call).2 ++
        (processCalls rules key (processCall rules m key call).1 calls).2 := hi
    rcases List.mem_append.mp hi' with hh | hh
    · unfold processCall at hh
      match hm : mapGet m key with
      | none =>
        rw [hm] at hh
        simp only [List.mem_singleton] at hh
        rw [hh]
        exact hm
      | some ep =>
        rw [hm] at hh
        rcases usage_types rules ep call i hh with h | h | h | h | h <;>
          (rw [isType, h] at hty; simp at hty)
    · unfold processCall at hh
      match hm : mapGet m key with
      | none =>
        rw [hm] at hh
        exact ih m i hh hty
      | some ep =>
        rw [hm] at hh
        have h1 := ih (markUsed m key) i hh hty
        have h2 := markUsed_isNone key i.endpoint m
        rw [h1] at h2
        simp only [Option.isNone_none, Bool.true_eq] at h2
        exact Option.isNone_iff_eq_none.mp h2

theorem processAllCalls_mbe_keys (rules : EndpointRules) :
    ∀ (calls : List (Str × List Call)) (m : List (Str × Endpoint)),
      ∀ i ∈ (processAllCalls rules m calls).2,
        isType .MISSING_BACKEND_ENDPOINT i = true → mapGet m i.endpoint = none := by
  intro calls
  induction calls with
  | nil => intro m i hi; simp [processAllCalls] at hi
  | cons p rest ih =>
    intro m i hi hty
    match p with
    | (key, cs) =>
      have hi' : i ∈ (processCalls rules key m cs).2 ++
          (processAllCalls rules (processCalls rules key m cs).1 rest).2 := hi
      rcases List.mem_append.mp hi' with hh | hh
      · exact processCalls_mbe_keys rules key cs m i hh hty
      · have h1 := ih (processCalls rules key m cs).1 i hh hty
        have h2 := processCalls_isNone rules key i.endpoint cs m
        rw [h1] at h2
        simp only [Option.isNone_none, Bool.true_eq] at h2
        exact Option.isNone_iff_eq_none.mp h2

/-! ## Claims C2, C7, C8 -/

/-- C2: for an endpoint map E and call-site map C, the reconciliation run
emits exactly one MISSING_BACKEND_ENDPOINT issue per call-site record
whose key has no entry in E (the count of such issues equals the number of
offending call records), and every MISSING_BACKEND_ENDPOINT issue it
emits names a key that has no entry in E. -/
theorem C2_missing_backend_exact (rules : EndpointRules)
    (E : List (Str × Endpoint)) (C : List (Str × List Call)) :
    (endpointValidate rules E C).countP (isType .MISSING_BACKEND_ENDPOINT)
      = countMissingCalls E C ∧
    ∀ i ∈ endpointValidate rules E C,
      isType .MISSING_BACKEND_ENDPOINT i = true → mapGet E i.endpoint = none := by
  constructor
  · rw [endpointValidate_eq, List.countP_append, processAllCalls_mbe_count,
      findUnused_mbe_zero]
    omega
  · intro i hi hty
    rw [endpointValidate_eq] at hi
    rcases List.mem_append.mp hi with hi | hi
    · exact processAllCalls_mbe_keys rules C E i hi hty
    · have h := (mem_findUnusedEndpoints hi).1
      rw [isType, h] at hty
      simp at hty

/-- C7: after all call sites have been processed, the reconciliation run
emits exactly one UNUSED_ENDPOINT issue per endpoint-map entry whose
`used` flag is still false (and none for used entries), each with
severity `rules.severity.unusedEndpoint || 'LOW'`. -/
theorem C7_unused_exact (rules : EndpointRules) (E : List (Str × Endpoint))
    (C : List (Str × List Call)) :
    (endpointValidate rules E C).countP (isType .UNUSED_ENDPOINT)
      = ((processAllCalls rules E C).1).countP (fun p => !p.2.used) ∧
    ∀ i ∈ endpointValidate rules E C, isType .UNUSED_ENDPOINT i = true →
      i.severity = jsOr rules.unusedEndpoint (str "LOW") := by
  constructor
  · rw [endpointValidate_eq, List.countP_append, phase1_no_unused, findUnused_count]
    simp
  · intro i hi hty
    rw [endpointValidate_eq] at hi
    rcases List.mem_append.mp hi with hi | hi
    · exact absurd hty (List.countP_eq_zero.mp (phase1_no_unused rules C E) i hi)
    · exact (mem_findUnusedEndpoints hi).2

/-- C8, counterexample: the claim says a MISSING_BODY_FIELD issue is
emitted for each required schema field absent from the call's body even
when the call sends no body at all.  In fact validateRequestBody returns
early on an empty body: for the matched pair below (endpoint with a
required field `name`, call with empty body) the run emits no
MISSING_BODY_FIELD issue. -/
theorem C8_counterexample :
    (mapGet C8E (str "POST /api/users")).isSome = true ∧
    (C8endpoint.expectedBody.countP fun fb => fb.2 && !(C8call.data.contains fb.1)) = 1 ∧
    (endpointValidate epRulesDefault C8E C8C).countP (isType .MISSING_BODY_FIELD) = 0 := by
  decide

/-- C8, amended: for a matched (Endpoint, CallSite) pair, each field of
the endpoint's body schema that is required and absent from the call's
body yields exactly one MISSING_BODY_FIELD issue — but only when the call
sends a nonempty body; a call whose body map is empty yields no body
issues at all. -/
theorem C8_amended (rules : EndpointRules) (ep : Endpoint) (call : Call) :
    (validateRequestBody rules ep call).countP (isType .MISSING_BODY_FIELD)
      = if call.data = [] then 0
        else ep.expectedBody.countP (fun fb => fb.2 && !(call.data.contains fb.1)) := by
  unfold validateRequestBody
  by_cases hd : call.data = []
  · rw [if_pos hd, if_pos hd]
    rfl
  · rw [if_neg hd, if_neg hd, List.countP_append]
    have h1 := countP_filterMap_ite_true ep.expectedBody
      (fun fb => fb.2 && !(call.data.contains fb.1))
      (fun fb => { type := .MISSING_BODY_FIELD,
                   severity := jsOr rules.missingBodyField (str "MEDIUM"),
                   endpoint := epKey ep.method ep.path, detail := fb.1 })
      IssueType.MISSING_BODY_FIELD (fun _ => rfl)
    have h2 := countP_filterMap_ite_false call.data
      (fun field => !(ep.expectedBody.any fun fb => fb.1 == field))
      (fun field => { type := .EXTRA_BODY_FIELD, severity := str "LOW",
                      endpoint := epKey ep.method ep.path, detail := field })
      IssueType.MISSING_BODY_FIELD (fun _ => by simp)
    rw [h1, h2]
    omega

theorem mapGet_mapSet {α : Type} (k : Str) (v : α) (k' : Str) :
    ∀ m : List (Str × α),
      mapGet (mapSet m k v) k' = if k = k' then some v else mapGet m k' := by
  intro m
  induction m with
  | nil => rfl
  | cons a rest ih =>
    match a with
    | (ka, va) =>
      by_cases hq : ka = k
      · subst hq
        by_cases hk : ka = k' <;> simp [mapSet, mapGet, hk]
      · by_cases hk : ka = k'
        · subst hk
          have : ¬k = ka := fun he => hq he.symm
          simp [mapSet, mapGet, hq, this]
        · simp [mapSet, mapGet, hq, hk, ih]

theorem buildEndpointMap_get :
    ∀ (eps : List Endpoint) (m : List (Str × Endpoint)) (k : Str),
      mapGet (buildEndpointMap m eps) k =
        (match lastWith k eps with
         | some e => some e
         | none => mapGet m k) := by
  intro eps
  induction eps with
  | nil => intro m k; rfl
  | cons ep rest ih =>
    intro m k
    show mapGet (buildEndpointMap (mapSet m (endpointMapKey ep) ep) rest) k = _
    rw [ih]
    match hl : lastWith k rest with
    | some r => simp [lastWith, hl]
    | none =>
      rw [mapGet_mapSet]
      by_cases hk : endpointMapKey ep = k
      · simp [lastWith, hl, hk]
      · simp [lastWith, hl, hk]

theorem mapSet_countP_ne {α : Type} (k' : Str) (v : α) (k : Str) (hk : k' ≠ k) :
    ∀ m : List (Str × α),
      (mapSet m k' v).countP (fun p => p.1 == k) = m.countP (fun p => p.1 == k) := by
  intro m
  induction m with
  | nil =>
    rw [show mapSet ([] : List (Str × α)) k' v = [(k', v)] from rfl,
      List.countP_cons]
    simp [hk]
  | cons a rest ih =>
    match a with
    | (ka, va) =>
      by_cases hq : ka = k'
      · subst hq
        rw [show mapSet ((ka, va) :: rest) ka v = (ka, v) :: rest by
          simp [mapSet]]
        rw [List.countP_cons, List.countP_cons]
      · rw [show mapSet ((ka, va) :: rest) k' v = (ka, va) :: mapSet rest k' v by
          simp [mapSet, hq]]
        rw [List.countP_cons, List.countP_cons, ih]

theorem mapSet_wf {α : Type} (k' : Str) (v : α) :
    ∀ m : List (Str × α), (∀ k, m.countP (fun p => p.1 == k) ≤ 1) →
      ∀ k, (mapSet m k' v).countP (fun p => p.1 == k) ≤ 1 := by
  intro m
  induction m with
  | nil =>
    intro _ k
    rw [show mapSet ([] : List (Str × α)) k' v = [(k', v)] from rfl,
      List.countP_cons]
    by_cases h : ((k', v).1 == k) = true <;> simp [h]
  | cons a rest ih =>
    intro h k
    match a with
    | (ka, va) =>
      have htail : ∀ k0, rest.countP (fun p => p.1 == k0) ≤ 1 := by
        intro k0
        have := h k0
        rw [List.countP_cons] at this
        omega
      by_cases hq : ka = k'
      · subst hq
        rw [show mapSet ((ka, va) :: rest) ka v = (ka, v) :: rest by
          simp [mapSet]]
        have := h k
        rw [List.countP_cons] at this ⊢
        exact this
      · rw [show mapSet ((ka, va) :: rest) k' v = (ka, va) :: mapSet rest k' v by
          simp [mapSet, hq]]
        rw [List.countP_cons]
        by_cases hka : ((ka, va).1 == k) = true
        · rw [hka]
          have hkk : k' ≠ k := by
            simp only [beq_iff_eq] at hka
            intro he
            exact hq (hka.trans he.symm)
          rw [mapSet_countP_ne k' v k hkk rest]
          have := h k
          rw [List.countP_cons, hka] at this
          omega
        · simp only [Bool.not_eq_true] at hka
          rw [hka, if_neg (by decide : ¬(false = true))]
          have := ih htail k
          omega

theorem buildEndpointMap_unique :
    ∀ (eps : List Endpoint) (m : List (Str × Endpoint)),
      (∀ k, m.countP (fun p => p.1 == k) ≤ 1) →
      ∀ k, (buildEndpointMap m eps).countP (fun p => p.1 == k) ≤ 1 := by
  intro eps
  induction eps with
  | nil => intro m h k; exact h k
  | cons ep rest ih =>
    intro m h k
    show (buildEndpointMap (mapSet m (endpointMapKey ep) ep) rest).countP _ ≤ 1
    exact ih _ (mapSet_wf (endpointMapKey ep) ep m h) k

/-! ## Claim C4 -/

/-- C4, counterexample: the claim says that when two route declarations
share a normalized key the later wins and the earlier is also retained in
a multimap.  In fact `this.endpoints` is a plain Map: with two
declarations for `GET /api/users`, the final map holds only the later
record and the earlier one appears nowhere. -/
theorem C4_counterexample :
    buildEndpointMap [] [C4e1, C4e2] = [(str "GET /api/users", C4e2)] ∧
    ¬ ∃ p ∈ buildEndpointMap [] [C4e1, C4e2], p.2 = C4e1 := by
  decide

/-- C4, amended: when two declarations normalize to the same
`(method, path)` key, the later one observed wins — the map holds the last
declaration for every key, each key at most once — and the earlier
declaration is lost (no multimap retains it). -/
theorem C4_amended (eps : List Endpoint) (k : Str) :
    mapGet (buildEndpointMap [] eps) k = lastWith k eps ∧
    (buildEndpointMap [] eps).countP (fun p => p.1 == k) ≤ 1 := by
  constructor
  · rw [buildEndpointMap_get]
    match hl : lastWith k eps with
    | some r => rfl
    | none => rfl
  · exact buildEndpointMap_unique eps [] (fun _ => by simp) k

theorem frontendAuth_no_sena (rules : SecurityRules) (E : List (Str × Endpoint)) :
    ∀ FC : List (Str × List Call),
      (validateFrontendAuthentication rules E FC).countP
        (isType .SENSITIVE_ENDPOINT_NO_AUTH) = 0 := by
  intro FC
  induction FC with
  | nil => rfl
  | cons p rest ih =>
    match p with
    | (key, calls) =>
      show (List.countP (isType .SENSITIVE_ENDPOINT_NO_AUTH)
        ((match mapGet E key with
          | some ep =>
            if ep.requiresAuth then
              calls.filterMap fun call =>
                if !call.hasAuth then
                  some { type := .MISSING_AUTH_HEADER,
                         severity := jsOr rules.missingAuth (str "HIGH"),
                         endpoint := key, detail := [] }
                else none
            else []
          | none => []) ++ validateFrontendAuthentication rules E rest)) = 0
      rw [List.countP_append, ih]
      rcases hm : mapGet E key with _ | ep
      · simp
      · simp only
        by_cases ha : ep.requiresAuth = true
        · rw [if_pos ha, countP_filterMap_ite_false calls (fun call => !call.hasAuth)
            (fun _ => { type := .MISSING_AUTH_HEADER,
                        severity := jsOr rules.missingAuth (str "HIGH"),
                        endpoint := key, detail := [] })
            IssueType.SENSITIVE_ENDPOINT_NO_AUTH (fun _ => by simp)]
        · rw [if_neg ha]
          rfl

/-! ## Claim C5 -/

/-- C5, counterexample: the claim says no SENSITIVE_ENDPOINT_NO_AUTH is
emitted for an endpoint on the exemption allowlist, in particular not for
POST /auth/login without auth middleware.  In fact isSensitiveEndpoint
consults no allowlist (isExemptFromAuth is used only by
validateSensitiveMethods), so the run emits SENSITIVE_ENDPOINT_NO_AUTH
for exactly this endpoint even though it is exempt. -/
theorem C5_counterexample :
    isExemptFromAuth (str "POST /auth/login") = true ∧
    C5endpoint.requiresAuth = false ∧
    (securityValidate secRulesDefault C5E []).countP
      (isType .SENSITIVE_ENDPOINT_NO_AUTH) = 1 := by
  decide

/-- C5, amended: the security pass emits exactly one
SENSITIVE_ENDPOINT_NO_AUTH (severity
`rules.severity.sensitiveEndpointNoAuth || 'CRITICAL'`) per endpoint-map
entry whose key matches a configured pattern or built-in sensitive
keyword and whose requiresAuth is false — with no exemption allowlist
involved; the allowlist only affects SENSITIVE_METHOD_NO_AUTH. -/
theorem C5_amended (rules : SecurityRules) (E : List (Str × Endpoint))
    (FC : List (Str × List Call)) :
    (securityValidate rules E FC).countP (isType .SENSITIVE_ENDPOINT_NO_AUTH)
      = E.countP (fun p => isSensitiveEndpoint rules p.1 && !p.2.requiresAuth) ∧
    ∀ i ∈ securityValidate rules E FC,
      isType .SENSITIVE_ENDPOINT_NO_AUTH i = true →
        i.severity = jsOr rules.sensitiveEndpointNoAuth (str "CRITICAL") := by
  have hauth := countP_filterMap_ite_true E
    (fun p => isSensitiveEndpoint rules p.1 && !p.2.requiresAuth)
    (fun p => { type := .SENSITIVE_ENDPOINT_NO_AUTH,
                severity := jsOr rules.sensitiveEndpointNoAuth (str "CRITICAL"),
                endpoint := p.1, detail := [] })
    IssueType.SENSITIVE_ENDPOINT_NO_AUTH (fun _ => rfl)
  have hpub := countP_filterMap_ite_false E
    (fun p => isPublicEndpoint p.1 rules.publicEndpoints && p.2.requiresAuth)
    (fun p => { type := .PUBLIC_ENDPOINT_HAS_AUTH, severity := str "MEDIUM",
                endpoint := p.1, detail := [] })
    IssueType.SENSITIVE_ENDPOINT_NO_AUTH (fun _ => by simp)
  have hsm := countP_filterMap_ite_false E
    (fun p => (sensitiveMethodsOf rules).contains p.2.method && !p.2.requiresAuth &&
      !(isExemptFromAuth p.1))
    (fun p => { type := .SENSITIVE_METHOD_NO_AUTH, severity := str "HIGH",
                endpoint := p.1, detail := [] })
    IssueType.SENSITIVE_ENDPOINT_NO_AUTH (fun _ => by simp)
  unfold securityValidate
  constructor
  · rw [List.countP_append, List.countP_append, List.countP_append,
      frontendAuth_no_sena]
    unfold validateAuthenticationRequirements validatePublicEndpoints
      validateSensitiveMethods
    rw [hauth, hpub, hsm]
    omega
  · intro i hi hty
    rcases List.mem_append.mp hi with hi | hi
    · rcases List.mem_append.mp hi with hi | hi
      · rcases List.mem_append.mp hi with hi | hi
        · unfold validateAuthenticationRequirements at hi
          obtain ⟨a, _, _, rfl⟩ := mem_filterMap_ite hi
          rfl
        · exact absurd hty
            (List.countP_eq_zero.mp (frontendAuth_no_sena rules E FC) i hi)
      · unfold validatePublicEndpoints at hi
        obtain ⟨a, _, _, rfl⟩ := mem_filterMap_ite hi
        simp [isType] at hty
    · unfold validateSensitiveMethods at hi
      obtain ⟨a, _, _, rfl⟩ := mem_filterMap_ite hi
      simp [isType] at hty

/-! ## Claim C6 -/

/-- C6, counterexample: the claim says a read that finds the file but
fails to deserialize it returns a miss and deletes the file.  In fact the
catch block of `get` only logs, counts a miss and returns null: the
corrupt file is still on disk after the read. -/
theorem C6_counterexample :
    (cacheGet C6cfg C6state (str "k") (str "files") 1000).1 = none ∧
    (mapGet (cacheGet C6cfg C6state (str "k") (str "files") 1000).2.disk
      (diskPathOf (str "files") (str "k"))).isSome = true := by
  decide

/-- C6, amended: a cache read that misses memory, finds the backing file
present and young enough, and fails to deserialize it returns a miss
(null) and leaves the state — in particular the corrupt file on disk —
completely unchanged; `get` never deletes on a parse failure (corrupt
files are only removed by `clearExpired`). -/
theorem C6_amended {V : Type} (cfg : CacheConfig) (st : CacheState V)
    (key category : Str) (now : Int) (f : DiskFile V)
    (hmem : mapGet st.mem (memKeyOf category key) = none)
    (hfile : mapGet st.disk (diskPathOf category key) = some f)
    (hage : ¬(now - f.mtimeMs > cfg.maxAge * 1000))
    (hparse : f.parsed = none) :
    cacheGet cfg st key category now = (none, st) := by
  unfold cacheGet
  simp only [hmem, hfile, if_neg hage, hparse]

/-- Witness for C6_amended at the concrete corrupt-file state. -/
theorem C6_amended_witness :
    (mapGet C6state.mem (memKeyOf (str "files") (str "k")) = none ∧
     mapGet C6state.disk (diskPathOf (str "files") (str "k")) =
       some { mtimeMs := 0, parsed := none } ∧
     ¬((1000 : Int) - 0 > C6cfg.maxAge * 1000) ∧
     (({ mtimeMs := 0, parsed := none } : DiskFile Nat)).parsed = none) ∧
    cacheGet C6cfg C6state (str "k") (str "files") 1000 = (none, C6state) := by
  refine ⟨⟨by decide, by decide, by decide, rfl⟩, ?_⟩
  exact C6_amended C6cfg C6state (str "k") (str "files") 1000
    { mtimeMs := 0, parsed := none } (by decide) (by decide) (by decide) rfl

theorem componentValidate_eq (rules : ComponentRules)
    (ds : List (Str × DSComponent)) (fc : List (Str × FComponent)) :
    componentValidate rules ds fc =
      detectIncorrectUsage (markUsage ds fc) fc ++
        findUnusedComponents rules (markUsage ds fc) ++
        detectIncorrectUsage (markUsage ds fc) fc ++
        validatePropsConsistency (markUsage ds fc) := rfl

theorem findByLowerName_mem :
    ∀ (ds : List (Str × DSComponent)) (n : Str) (c : DSComponent),
      findByLowerName ds n = some c → ∃ k, (k, c) ∈ ds := by
  intro ds
  induction ds with
  | nil => intro n c h; simp [findByLowerName] at h
  | cons p rest ih =>
    intro n c h
    match p with
    | (k0, c0) =>
      by_cases hn : lowerL c0.name = n
      · rw [show findByLowerName ((k0, c0) :: rest) n = some c0 by
          simp [findByLowerName, hn]] at h
        injection h with h
        exact ⟨k0, by rw [← h]; exact List.mem_cons_self _ _⟩
      · rw [show findByLowerName ((k0, c0) :: rest) n = findByLowerName rest n by
          simp [findByLowerName, hn]] at h
        obtain ⟨k, hk⟩ := ih n c h
        exact ⟨k, List.mem_cons_of_mem _ hk⟩

theorem mem_detectIncorrectUsage {ds : List (Str × DSComponent)}
    {fc : List (Str × FComponent)} {i : Issue}
    (h : i ∈ detectIncorrectUsage ds fc) :
    i.type = .DUPLICATE_COMPONENT ∧
    ∃ k c, (k, c) ∈ ds ∧ c.used = false ∧ i.detail = c.name := by
  unfold detectIncorrectUsage at h
  rcases List.mem_filterMap.mp h with ⟨p, _, heq⟩
  rcases hf : (ds.map fun q => lowerL q.1).find?
      (fun dsName => areComponentsSimilar (lowerL p.2.name) dsName) with _ | similarName
  · rw [hf] at heq; simp at heq
  · simp only [hf] at heq
    rcases hb : findByLowerName ds similarName with _ | dsComp
    · simp only [hb] at heq
      simp at heq
    · simp only [hb] at heq
      by_cases hu : (!dsComp.used) = true
      · rw [if_pos hu] at heq
        injection heq with heq
        obtain ⟨k, hk⟩ := findByLowerName_mem ds similarName dsComp hb
        refine ⟨by rw [← heq], k, dsComp, hk, ?_, by rw [← heq]⟩
        simp only [Bool.not_eq_true'] at hu
        exact hu
      · rw [if_neg hu] at heq
        simp at heq

theorem detect_no_unused (ds : List (Str × DSComponent))
    (fc : List (Str × FComponent)) :
    (detectIncorrectUsage ds fc).countP (isType .UNUSED_DS_COMPONENT) = 0 :=
  List.countP_eq_zero.mpr fun i hi => by
    have h := (mem_detectIncorrectUsage hi).1
    simp [isType, h]

theorem mem_validatePropsConsistency :
    ∀ ds : List (Str × DSComponent), ∀ i ∈ validatePropsConsistency ds,
      i.type = .VERIFY_PROPS_USAGE := by
  intro ds
  induction ds with
  | nil => intro i hi; simp [validatePropsConsistency] at hi
  | cons p rest ih =>
    intro i hi
    match p with
    | (k0, c0) =>
      have hi' : i ∈ (if c0.used && !c0.props.isEmpty
          then validateBasicPropsUsage c0 else []) ++
            validatePropsConsistency rest := hi
      rcases List.mem_append.mp hi' with hh | hh
      · by_cases hc : (c0.used && !c0.props.isEmpty) = true
        · rw [if_pos hc] at hh
          unfold validateBasicPropsUsage at hh
          by_cases hp : (c0.props.filter fun pr =>
              !pr.2 && !(pr.1 == str "children")) ≠ []
          · rw [if_pos hp] at hh
            rcases List.mem_map.mp hh with ⟨f, _, hfe⟩
            rw [← hfe]
          · rw [if_neg hp] at hh
            simp at hh
        · rw [if_neg hc] at hh
          simp at hh
      · exact ih i hh

theorem props_no_unused (ds : List (Str × DSComponent)) :
    (validatePropsConsistency ds).countP (isType .UNUSED_DS_COMPONENT) = 0 :=
  List.countP_eq_zero.mpr fun i hi => by
    have h := mem_validatePropsConsistency ds i hi
    simp [isType, h]

theorem findUnusedComponents_count (rules : ComponentRules)
    (ds : List (Str × DSComponent)) :
    (findUnusedComponents rules ds).countP (isType .UNUSED_DS_COMPONENT)
      = ds.countP (fun p => !p.2.used) := by
  unfold findUnusedComponents
  exact countP_filterMap_ite_true ds (fun p => !p.2.used)
    (fun p => { type := .UNUSED_DS_COMPONENT,
                severity := jsOr rules.unusedComponent (str "LOW"),
                endpoint := p.1, detail := [] })
    IssueType.UNUSED_DS_COMPONENT (fun _ => rfl)

theorem mem_findUnusedComponents_type {rules : ComponentRules}
    {ds : List (Str × DSComponent)} {i : Issue}
    (h : i ∈ findUnusedComponents rules ds) : i.type = .UNUSED_DS_COMPONENT := by
  unfold findUnusedComponents at h
  obtain ⟨a, _, _, rfl⟩ := mem_filterMap_ite h
  rfl

theorem findUnused_mem_of_unused (rules : ComponentRules)
    (ds : List (Str × DSComponent)) (k : Str) (c : DSComponent)
    (h : (k, c) ∈ ds) (hu : c.used = false) :
    ({ type := .UNUSED_DS_COMPONENT,
       severity := jsOr rules.unusedComponent (str "LOW"),
       endpoint := k, detail := [] } : Issue) ∈ findUnusedComponents rules ds :=
  List.mem_filterMap.mpr ⟨(k, c), h, by rw [if_pos (by simp [hu])]⟩

/-! ## Claim C9 -/

/-- C9, counterexample: the claim says a design-system component named in
a DUPLICATE_COMPONENT report does not additionally produce
UNUSED_DS_COMPONENT.  In fact duplicate reports are only produced for
unused design-system components and do not suppress the unused report: for
an unused DS `Card` duplicated by a frontend `Card`, the run emits both a
DUPLICATE_COMPONENT naming Card and the UNUSED_DS_COMPONENT for Card. -/
theorem C9_counterexample :
    (componentValidate compRulesDefault C9ds C9fc).countP
      (fun i => isType .DUPLICATE_COMPONENT i && (i.detail == str "Card")) ≥ 1 ∧
    (componentValidate compRulesDefault C9ds C9fc).countP
      (fun i => isType .UNUSED_DS_COMPONENT i && (i.endpoint == str "Card")) = 1 := by
  decide

/-- C9, amended: after the component-duplication pass, a design-system
component yields exactly one UNUSED_DS_COMPONENT issue iff it is still
unused after the usage-marking pass, regardless of duplicate reports;
every unused entry gets its unused report, and every DUPLICATE_COMPONENT
report names a design-system component that is unused (and therefore also
reported as UNUSED_DS_COMPONENT). -/
theorem C9_amended (rules : ComponentRules) (ds : List (Str × DSComponent))
    (fc : List (Str × FComponent)) :
    (componentValidate rules ds fc).countP (isType .UNUSED_DS_COMPONENT)
      = (markUsage ds fc).countP (fun p => !p.2.used) ∧
    (∀ k c, (k, c) ∈ markUsage ds fc → c.used = false →
      ∃ j ∈ componentValidate rules ds fc,
        isType .UNUSED_DS_COMPONENT j = true ∧ j.endpoint = k) ∧
    (∀ i ∈ componentValidate rules ds fc,
      isType .DUPLICATE_COMPONENT i = true →
        ∃ k c, (k, c) ∈ markUsage ds fc ∧ c.used = false ∧ i.detail = c.name) := by
  refine ⟨?_, ?_, ?_⟩
  · rw [componentValidate_eq, List.countP_append, List.countP_append,
      List.countP_append, detect_no_unused, findUnusedComponents_count,
      props_no_unused]
    omega
  · intro k c hmem hu
    refine ⟨{ type := .UNUSED_DS_COMPONENT,
              severity := jsOr rules.unusedComponent (str "LOW"),
              endpoint := k, detail := [] }, ?_, by simp [isType], rfl⟩
    rw [componentValidate_eq]
    exact List.mem_append.mpr (Or.inl (List.mem_append.mpr (Or.inl
      (List.mem_append.mpr (Or.inr
        (findUnused_mem_of_unused rules (markUsage ds fc) k c hmem hu))))))
  · intro i hi hty
    rw [componentValidate_eq] at hi
    rcases List.mem_append.mp hi with hi | hi
    · rcases List.mem_append.mp hi with hi | hi
      · rcases List.mem_append.mp hi with hi | hi
        · exact (mem_detectIncorrectUsage hi).2
        · have h := (mem_findUnusedComponents_type hi)
          rw [isType, h] at hty
          simp at hty
      · exact (mem_detectIncorrectUsage hi).2
    · have h := mem_validatePropsConsistency _ i hi
      rw [isType, h] at hty
      simp at hty

/-! ## Claims C1, C3, C10 -/

/-- C1, counterexample: the claim says BackendAnalyzer.normalizePath and
FrontendAnalyzer.cleanEndpoint are the same function, each performing all
four canonicalization steps.  In fact they disagree already on "a//b/"
(normalizePath collapses the `//` and strips the trailing `/`,
cleanEndpoint does neither); normalizePath performs no `${...}`
replacement; and cleanEndpoint collapses no repeated slashes and strips
no trailing slash. -/
theorem C1_counterexample :
    normalizePath (str "a//b/") ≠ cleanEndpoint (str "a//b/") ∧
    normalizePath (str "/api/${id}") = str "/api/${id}" ∧
    cleanEndpoint (str "/a//b/") = str "/a//b/" := by
  decide

/-- C1, amended: the route extractor's normalizePath (collapse repeated
`/`, ensure one leading `/`, strip one trailing `/` except for the root)
and the call-site extractor's cleanEndpoint (strip `scheme://host`, drop
everything from the first `?`, replace `${...}` by `:param`, ensure a
leading `/`) are distinct functions; they agree — both being the
identity — on paths that are already canonical for both: a leading
slash, no repeated slash, no `?`, no `}` (hence no complete template
interpolation), and no trailing slash unless the path is exactly `/`. -/
theorem C1_amended (s : Str)
    (h1 : startsWithL s (str "/") = true)
    (h2 : noDouble s = true)
    (h3 : '?' ∉ s)
    (h4 : '}' ∉ s)
    (h5 : ¬(1 < s.length ∧ lastChar s = some '/')) :
    normalizePath s = cleanEndpoint s ∧ normalizePath s = s := by
  have hn : normalizePath s = s := normalizePath_fix s h2 h1 h5
  have hc : cleanEndpoint s = s := by
    obtain ⟨t, ht⟩ := startsWith_slash_ex h1
    unfold cleanEndpoint
    rw [if_neg (by rw [ht]; simp), ht, stripHost_slash, ← ht,
      show takeBeforeQuery s = s from beforeChar_id '?' s h3,
      show replaceTpl s = s from (tplRun_no_close s h4).1]
    exact ensureLeadingSlash_id s h1
  rw [hn, hc]
  exact ⟨rfl, rfl⟩

/-- Witness for C1_amended at the canonical path "/api/users". -/
theorem C1_amended_witness :
    (startsWithL (str "/api/users") (str "/") = true ∧
     noDouble (str "/api/users") = true ∧
     '?' ∉ str "/api/users" ∧
     '}' ∉ str "/api/users" ∧
     ¬(1 < (str "/api/users").length ∧ lastChar (str "/api/users") = some '/')) ∧
    normalizePath (str "/api/users") = cleanEndpoint (str "/api/users") := by
  refine ⟨⟨by decide, by decide, by decide, by decide, by decide⟩, ?_⟩
  exact (C1_amended (str "/api/users") (by decide) (by decide) (by decide)
    (by decide) (by decide)).1

/-- C3: both normalization functions applied by the extractors are
idempotent: for every raw path/URL string x,
normalizePath (normalizePath x) = normalizePath x and
cleanEndpoint (cleanEndpoint x) = cleanEndpoint x. -/
theorem C3_normalize_idempotent (x : Str) :
    normalizePath (normalizePath x) = normalizePath x ∧
    cleanEndpoint (cleanEndpoint x) = cleanEndpoint x :=
  ⟨normalizePath_idem x, cleanEndpoint_idem x⟩

/-- C10: the query string is stripped (cleanEndpoint cuts at the first
`?`) before extractQueryParams is applied to the cleaned endpoint, so the
queryParams recorded on every CallSite are the empty list. -/
theorem C10_queryParams_empty (s : Str) :
    extractQueryParams (cleanEndpoint s) = [] := by
  unfold extractQueryParams
  rw [afterChar_eq_none '?' _ (cleanEndpoint_qfree s)]

end DGuard
